import Mathlib

/-!
# PBFT message codec, peer sync handler and simulation backend

A shallow embedding of

* `consensus/pbft/types.go`: the message kind codes, the message structs, `Message`,
  `Encode` and `Decode`;
* the signed envelope that `consensus/pbft/types_test.go` exercises (`Message.Payload`,
  `Message.FromPayload`), whose code is not at hand and is modelled from the spec;
* `consensus/pbft/core/connection.go`: `handleConnection`, `sendHello`, `handleHello`;
* `consensus/pbft/backends/simulation/backend.go`: `makeBlock`, `commitBlock`,
  `newRequest`;

followed by the properties proved about them.

Conventions of the embedding.

* A Go slice is a `Slice`, either the nil slice or a slice with its elements; the raw
  bytes of a payload are a `List Byte`.
* A pointer is an `Option`, `none` being the nil pointer; a `*big.Int` is an
  `Option Int`.
* `uint32`/`uint64` values are natural numbers, with an explicit `% 2 ^ 32` where the Go
  code converts to the narrower type.
* Functions that return a Go `error` return an `Except`, or the new state together with
  an `Option` holding the error.
* Package `rlp`, which `types.go` calls for the canonical encoding, is not among the
  sources; it is modelled as Ethereum RLP, on the message structs of `types.go`.
* Logging has no effect on the state and is left out.
-/

namespace pbft

/-! ## Bytes and big-endian integers -/

abbrev Byte := Fin 256

/-- The Go conversion `byte(n)`: the low eight bits of `n`. -/
def byte (n : Nat) : Byte := ⟨n % 256, Nat.mod_lt n (by decide)⟩

/-- Little-endian base-256 digits of `n`; the first argument bounds the recursion and
`n` itself is always enough. -/
def leBytes : Nat → Nat → List Byte
  | 0, _ => []
  | fuel + 1, n => if n = 0 then [] else byte n :: leBytes fuel (n / 256)

/-- Minimal big-endian representation of `n` (`big.Int.Bytes`, `putint`): no leading
zero byte, the empty list for zero. -/
def beBytes (n : Nat) : List Byte := (leBytes n n).reverse

/-- Value of a big-endian byte string (`big.Int.SetBytes`, `binary.BigEndian.Uint64`). -/
def beValue (bs : List Byte) : Nat := bs.foldl (fun acc b => acc * 256 + b.val) 0

/-! ## The canonical encoding (package `rlp`) -/

/-- Modelled from the spec: the errors of package `rlp`, which `types.go` imports and
which is not part of the sources at hand. The spec only speaks of a decode or schema
failure; the constructors name the reasons for which the canonical encoding rejects an
input. Running out of input (`io.EOF`, `io.ErrUnexpectedEOF`, the end of the enclosing
list) is the single error `eof`. -/
inductive RlpError
  | eof
  | valueTooLarge
  | canonSize
  | canonInt
  | expectedString
  | expectedList
  | uintOverflow
  | tooManyElements
  | wrongArrayLength
  | negativeBigInt
  deriving DecidableEq

deriving instance DecidableEq for Except

/-- Modelled from the spec: what the header of an encoded item announces; `rlp.Kind`
together with the size (or, for a single byte below `0x80`, the byte itself). -/
inductive Head
  | byte (b : Byte)
  | string (size : Nat)
  | list (size : Nat)
  deriving DecidableEq

/-- A decoder reads one item from the front of the input and returns it with the unread
rest. -/
abbrev Decoder (α : Type) := List Byte → Except RlpError (α × List Byte)

/-- Modelled from the spec: the header written by package `rlp` (`puthead`) in front
of a string or list of `size` bytes. One byte `smalltag + size` below 56 bytes, else
`largetag + (number of length bytes)` followed by the big-endian length. -/
def puthead (smalltag largetag size : Nat) : List Byte :=
  if size < 56 then [byte (smalltag + size)]
  else byte (largetag + (beBytes size).length) :: beBytes size

/-- Modelled from the spec: canonical encoding of a byte string
(`encbuf.encodeString` of package `rlp`). A single byte below `0x80` is its own
encoding. -/
def encodeString (b : List Byte) : List Byte :=
  match b with
  | [x] => if x.val ≤ 0x7F then [x] else puthead 0x80 0xB7 1 ++ [x]
  | _ => puthead 0x80 0xB7 b.length ++ b

/-- Modelled from the spec: canonical encoding of a list whose elements are already
encoded in `content` (`listhead.encode` of package `rlp`). -/
def encodeList (content : List Byte) : List Byte :=
  puthead 0xC0 0xF7 content.length ++ content

/-- Modelled from the spec: canonical encoding of an unsigned integer
(`writeUint`, `writeBigInt` of package `rlp`): the minimal big-endian bytes as a string. -/
def encodeUint (n : Nat) : List Byte := encodeString (beBytes n)

/-- Modelled from the spec: `Stream.readUint` of package `rlp`, reading a big-endian
integer of `size` bytes. Two or more bytes may not start with a zero byte. -/
def readUint (size : Nat) (bs : List Byte) : Except RlpError (Nat × List Byte) :=
  match size with
  | 0 => .ok (0, bs)
  | 1 =>
    match bs with
    | [] => .error .eof
    | b :: rest => .ok (b.val, rest)
  | _ =>
    if bs.length < size then .error .eof
    else if (bs.take size).head? = some 0 then .error .canonSize
    else .ok (beValue (bs.take size), bs.drop size)

/-- Modelled from the spec: header of a long string or list (`Stream.readKind` of
package `rlp`, tags `0xB8..0xBF` and `0xF8..0xFF`): sizes below 56 must use the short
form. -/
def readLongSize (lenlen : Nat) (bs : List Byte) : Except RlpError (Nat × List Byte) :=
  match readUint lenlen bs with
  | .error e => .error e
  | .ok (size, rest) => if size < 56 then .error .canonSize else .ok (size, rest)

/-- Modelled from the spec: `Stream.readKind` of package `rlp`. -/
def readKind (bs : List Byte) : Except RlpError (Head × List Byte) :=
  match bs with
  | [] => .error .eof
  | b :: rest =>
    if b.val < 0x80 then .ok (.byte b, rest)
    else if b.val < 0xB8 then .ok (.string (b.val - 0x80), rest)
    else if b.val < 0xC0 then
      match readLongSize (b.val - 0xB7) rest with
      | .error e => .error e
      | .ok (size, rest') => .ok (.string size, rest')
    else if b.val < 0xF8 then .ok (.list (b.val - 0xC0), rest)
    else
      match readLongSize (b.val - 0xF7) rest with
      | .error e => .error e
      | .ok (size, rest') => .ok (.list size, rest')

/-- Modelled from the spec: `Stream.Kind` of package `rlp`: the header of the next item,
rejected when the item announces more bytes than the input (or the enclosing list) still
holds. -/
def kind (bs : List Byte) : Except RlpError (Head × List Byte) :=
  match readKind bs with
  | .error e => .error e
  | .ok (.byte b, rest) => .ok (.byte b, rest)
  | .ok (.string size, rest) =>
    if size > rest.length then .error .valueTooLarge else .ok (.string size, rest)
  | .ok (.list size, rest) =>
    if size > rest.length then .error .valueTooLarge else .ok (.list size, rest)

/-- Modelled from the spec: `Stream.Bytes` of package `rlp`, the decoder of `[]byte`. -/
def decodeBytes : Decoder (List Byte) := fun bs =>
  match kind bs with
  | .error e => .error e
  | .ok (.byte b, rest) => .ok ([b], rest)
  | .ok (.string size, rest) =>
    if size = 1 ∧ (rest.head?.map fun x => decide (x.val < 128)) = some true then
      .error .canonSize
    else .ok (rest.take size, rest.drop size)
  | .ok (.list _, _) => .error .expectedString

/-- Modelled from the spec: `decodeBigInt` of package `rlp`: a byte string without a
leading zero byte, read as a big-endian number. -/
def decodeBigInt : Decoder Int := fun bs =>
  match decodeBytes bs with
  | .error e => .error e
  | .ok (b, rest) =>
    if b.head? = some 0 then .error .canonInt else .ok (Int.ofNat (beValue b), rest)

/-- Modelled from the spec: `Stream.uint` of package `rlp`, the decoder of an unsigned
integer of at most `maxbits` bits. -/
def decodeUint (maxbits : Nat) : Decoder Nat := fun bs =>
  match kind bs with
  | .error e => .error e
  | .ok (.byte b, rest) => if b.val = 0 then .error .canonInt else .ok (b.val, rest)
  | .ok (.string size, rest) =>
    if size > maxbits / 8 then .error .uintOverflow
    else
      match readUint size rest with
      | .error .canonSize => .error .canonInt
      | .error e => .error e
      | .ok (v, rest') => if 0 < size ∧ v < 128 then .error .canonSize else .ok (v, rest')
  | .ok (.list _, _) => .error .expectedString

/-- Modelled from the spec: `Stream.List` of package `rlp`: enters a list and returns its
content together with the input that follows the list. -/
def decodeListHead : Decoder (List Byte) := fun bs =>
  match kind bs with
  | .error e => .error e
  | .ok (.list size, rest) => .ok (rest.take size, rest.drop size)
  | .ok (_, _) => .error .expectedList

/-- Modelled from the spec: the struct decoder of package `rlp`: `Stream.List`, the
fields in order (`fields`), then `Stream.ListEnd`, which rejects unread content. -/
def decodeStruct {α : Type} (fields : Decoder α) : Decoder α := fun bs =>
  match decodeListHead bs with
  | .error e => .error e
  | .ok (content, after) =>
    match fields content with
    | .error e => .error e
    | .ok (v, []) => .ok (v, after)
    | .ok (_, _ :: _) => .error .tooManyElements

/-- Modelled from the spec: the loop of `decodeListSlice` of package `rlp`: elements
are read until the content of the list is used up. The first argument bounds the
recursion; every element takes at least one byte, so the length of the content is always
enough. -/
def decodeElems {α : Type} (elem : Decoder α) : Nat → List Byte → Except RlpError (List α)
  | _, [] => .ok []
  | 0, _ :: _ => .error .eof
  | fuel + 1, b :: bs =>
    match elem (b :: bs) with
    | .error e => .error e
    | .ok (v, rest) =>
      match decodeElems elem fuel rest with
      | .error e => .error e
      | .ok vs => .ok (v :: vs)

/-- Modelled from the spec: `decodeListSlice` of package `rlp`, the decoder of a slice. -/
def decodeListSlice {α : Type} (elem : Decoder α) : Decoder (List α) := fun bs =>
  match decodeListHead bs with
  | .error e => .error e
  | .ok (content, after) =>
    match decodeElems elem content.length content with
    | .error e => .error e
    | .ok vs => .ok (vs, after)

/-- Modelled from the spec: two consecutive fields of a struct, decoded in order (the
loop over `fields` in the struct decoder of package `rlp`). -/
def andThen {α β : Type} (p : Decoder α) (q : Decoder β) : Decoder (α × β) := fun bs =>
  match p bs with
  | .error e => .error e
  | .ok (a, rest) =>
    match q rest with
    | .error e => .error e
    | .ok (b, rest') => .ok ((a, b), rest')

/-- The value a decoder yields, put into its place: the fields into their struct, a
fresh value behind its pointer. -/
def mapDec {α β : Type} (f : α → β) (p : Decoder α) : Decoder β := fun bs =>
  match p bs with
  | .error e => .error e
  | .ok (a, rest) => .ok (f a, rest)

/-! ## `types.go`: message kinds and message structs -/

def MsgRequest : Nat := 0
def MsgPreprepare : Nat := 1
def MsgPrepare : Nat := 2
def MsgCommit : Nat := 3
def MsgCheckpoint : Nat := 4
def MsgViewChange : Nat := 5
def MsgNewView : Nat := 6

/-- A Go slice `[]T`: the nil slice, or a slice holding the given elements, possibly
none. The two are different values of Go (`reflect.DeepEqual` tells them apart). -/
inductive Slice (α : Type)
  | nil
  | of (elems : List α)
  deriving DecidableEq

/-- The elements of a slice, `len(s)` of them; the nil slice has none. -/
def Slice.elems {α : Type} : Slice α → List α
  | .nil => []
  | .of l => l

/-! A pointer `*T` is an `Option T`, with `none` for the nil pointer. -/

structure Request where
  Payload : Slice Byte
  deriving DecidableEq

structure View where
  ViewNumber : Option Int
  Sequence : Option Int
  deriving DecidableEq

structure Proposal where
  Header : Slice Byte
  Payload : Slice Byte
  Signatures : Slice (Slice Byte)
  deriving DecidableEq

structure Preprepare where
  View : Option View
  Proposal : Option Proposal
  deriving DecidableEq

structure Subject where
  View : Option View
  Digest : Slice Byte
  deriving DecidableEq

structure ViewChange where
  ViewNumber : Option Int
  PSet : Slice (Option Subject)
  QSet : Slice (Option Subject)
  Proposal : Option Proposal
  deriving DecidableEq

structure SignedViewChange where
  Data : Slice Byte
  Signature : Slice Byte
  deriving DecidableEq

structure NewView where
  ViewNumber : Option Int
  VSet : Option SignedViewChange
  XSet : Option Subject
  Proposal : Option Proposal
  deriving DecidableEq

structure Checkpoint where
  Sequence : Option Int
  Digest : Slice Byte
  Signature : Slice Byte
  deriving DecidableEq

structure Message where
  Code : Nat
  Size : Nat
  Payload : List Byte
  deriving DecidableEq

/-- The Go types a message can be encoded from and decoded into: the dynamic type of the
`val interface{}` argument of `Encode` and `Decode`. -/
inductive MsgType
  | request
  | preprepare
  | subject
  | viewChange
  | newView
  | checkpoint
  deriving DecidableEq

/-- A value passed as `val interface{}`. -/
inductive Value
  | request (r : Request)
  | preprepare (p : Preprepare)
  | subject (s : Subject)
  | viewChange (v : ViewChange)
  | newView (n : NewView)
  | checkpoint (c : Checkpoint)
  deriving DecidableEq

def Value.type : Value → MsgType
  | .request _ => .request
  | .preprepare _ => .preprepare
  | .subject _ => .subject
  | .viewChange _ => .viewChange
  | .newView _ => .newView
  | .checkpoint _ => .checkpoint

/-! ### Encoders of the message structs

Modelled from the spec, on the struct declarations of `types.go`: package `rlp` encodes a
struct as the list of its fields in declaration order, a slice as the list of its
elements, a `[]byte` as a string and a `*big.Int` as an unsigned integer; a negative
`*big.Int` cannot be encoded. A nil slice is encoded as an empty one, a nil `*big.Int` as
zero and a nil pointer to a struct as the empty list. -/

/-- Modelled from the spec: the encoder of `[]byte` of package `rlp` (`writeBytes`). -/
def encodeByteSlice (b : Slice Byte) : List Byte := encodeString (Slice.elems b)

/-- Modelled from the spec: `writeBigInt` of package `rlp` on a non-negative number. -/
def encodeBigInt (i : Int) : List Byte := encodeUint i.toNat

/-- Modelled from the spec: `writeBigIntPtr` of package `rlp`; the nil pointer is written
as the empty string, which is also the encoding of zero. -/
def encodeBigIntPtr : Option Int → List Byte
  | none => encodeString []
  | some i => encodeBigInt i

/-- Modelled from the spec: the encoder of a pointer to a struct of package `rlp`
(`makePtrWriter`); the nil pointer is written as the empty list. -/
def encodePtr {α : Type} (enc : α → List Byte) : Option α → List Byte
  | none => encodeList []
  | some v => enc v

/-- Modelled from the spec: the encoder of a slice of package `rlp`
(`makeSliceWriter`): the list of the encoded elements. -/
def encodeSlice {α : Type} (enc : α → List Byte) (xs : Slice α) : List Byte :=
  encodeList ((Slice.elems xs).map enc).flatten

def Request.encode (r : Request) : List Byte :=
  encodeList (encodeByteSlice r.Payload)

def View.encode (v : View) : List Byte :=
  encodeList (encodeBigIntPtr v.ViewNumber ++ encodeBigIntPtr v.Sequence)

def Proposal.encode (p : Proposal) : List Byte :=
  encodeList (encodeByteSlice p.Header ++
    (encodeByteSlice p.Payload ++ encodeSlice encodeByteSlice p.Signatures))

def Preprepare.encode (p : Preprepare) : List Byte :=
  encodeList (encodePtr View.encode p.View ++ encodePtr Proposal.encode p.Proposal)

def Subject.encode (s : Subject) : List Byte :=
  encodeList (encodePtr View.encode s.View ++ encodeByteSlice s.Digest)

def ViewChange.encode (v : ViewChange) : List Byte :=
  encodeList (encodeBigIntPtr v.ViewNumber ++
    (encodeSlice (encodePtr Subject.encode) v.PSet ++
      (encodeSlice (encodePtr Subject.encode) v.QSet ++ encodePtr Proposal.encode v.Proposal)))

def SignedViewChange.encode (s : SignedViewChange) : List Byte :=
  encodeList (encodeByteSlice s.Data ++ encodeByteSlice s.Signature)

def NewView.encode (n : NewView) : List Byte :=
  encodeList (encodeBigIntPtr n.ViewNumber ++
    (encodePtr SignedViewChange.encode n.VSet ++
      (encodePtr Subject.encode n.XSet ++ encodePtr Proposal.encode n.Proposal)))

def Checkpoint.encode (c : Checkpoint) : List Byte :=
  encodeList (encodeBigIntPtr c.Sequence ++
    (encodeByteSlice c.Digest ++ encodeByteSlice c.Signature))

def Value.encode : Value → List Byte
  | .request r => r.encode
  | .preprepare p => p.encode
  | .subject s => s.encode
  | .viewChange v => v.encode
  | .newView n => n.encode
  | .checkpoint c => c.encode

/-! ### Encodable values: no negative `*big.Int` -/

/-- A property of what a pointer points to; it holds of the nil pointer. -/
def ptrAll {α : Type} (g : α → Prop) : Option α → Prop
  | none => True
  | some a => g a

instance {α : Type} (g : α → Prop) [DecidablePred g] (o : Option α) : Decidable (ptrAll g o) := by
  cases o <;> unfold ptrAll <;> infer_instance

def bigIntEncodable : Option Int → Prop := ptrAll (fun i => 0 ≤ i)

instance (o : Option Int) : Decidable (bigIntEncodable o) := by
  unfold bigIntEncodable; infer_instance

def View.encodable (v : View) : Prop :=
  bigIntEncodable v.ViewNumber ∧ bigIntEncodable v.Sequence

instance (v : View) : Decidable v.encodable := by
  unfold View.encodable; infer_instance

def Subject.encodable (s : Subject) : Prop := ptrAll View.encodable s.View

instance (s : Subject) : Decidable s.encodable := by
  unfold Subject.encodable; infer_instance

def Preprepare.encodable (p : Preprepare) : Prop := ptrAll View.encodable p.View

instance (p : Preprepare) : Decidable p.encodable := by
  unfold Preprepare.encodable; infer_instance

def ViewChange.encodable (v : ViewChange) : Prop :=
  bigIntEncodable v.ViewNumber ∧ (∀ s ∈ Slice.elems v.PSet, ptrAll Subject.encodable s) ∧
    (∀ s ∈ Slice.elems v.QSet, ptrAll Subject.encodable s)

instance (v : ViewChange) : Decidable v.encodable := by
  unfold ViewChange.encodable; infer_instance

def NewView.encodable (n : NewView) : Prop :=
  bigIntEncodable n.ViewNumber ∧ ptrAll Subject.encodable n.XSet

instance (n : NewView) : Decidable n.encodable := by
  unfold NewView.encodable; infer_instance

def Checkpoint.encodable (c : Checkpoint) : Prop := bigIntEncodable c.Sequence

instance (c : Checkpoint) : Decidable c.encodable := by
  unfold Checkpoint.encodable; infer_instance

def Value.encodable : Value → Prop
  | .request _ => True
  | .preprepare p => p.encodable
  | .subject s => s.encodable
  | .viewChange v => v.encodable
  | .newView n => n.encodable
  | .checkpoint c => c.encodable

instance (v : Value) : Decidable v.encodable := by
  cases v <;> unfold Value.encodable <;> infer_instance

/-- Modelled from the spec: `rlp.EncodeToBytes` on a message value: the canonical bytes,
or an error when the value holds a negative `*big.Int`. -/
def EncodeToBytes (val : Value) : Except RlpError (List Byte) :=
  if val.encodable then .ok val.encode else .error .negativeBigInt

/-! ### Valid values: no nil pointer, no nil slice, no negative `*big.Int` -/

/-- A property of what a pointer points to; it fails for the nil pointer. -/
def ptrValid {α : Type} (g : α → Prop) : Option α → Prop
  | none => False
  | some a => g a

instance {α : Type} (g : α → Prop) [DecidablePred g] (o : Option α) :
    Decidable (ptrValid g o) := by
  cases o <;> unfold ptrValid <;> infer_instance

/-- A property of every element of a slice; it fails for the nil slice. -/
def sliceValid {α : Type} (g : α → Prop) : Slice α → Prop
  | .nil => False
  | .of l => ∀ a ∈ l, g a

instance {α : Type} (g : α → Prop) [DecidablePred g] (s : Slice α) :
    Decidable (sliceValid g s) := by
  cases s <;> unfold sliceValid <;> infer_instance

def bigIntValid : Option Int → Prop := ptrValid (fun i => 0 ≤ i)

instance (o : Option Int) : Decidable (bigIntValid o) := by
  unfold bigIntValid; infer_instance

def bytesValid : Slice Byte → Prop := sliceValid (fun _ => True)

instance (s : Slice Byte) : Decidable (bytesValid s) := by
  unfold bytesValid; infer_instance

def Request.valid (r : Request) : Prop := bytesValid r.Payload

instance (r : Request) : Decidable r.valid := by
  unfold Request.valid; infer_instance

def View.valid (v : View) : Prop := bigIntValid v.ViewNumber ∧ bigIntValid v.Sequence

instance (v : View) : Decidable v.valid := by
  unfold View.valid; infer_instance

def Proposal.valid (p : Proposal) : Prop :=
  bytesValid p.Header ∧ bytesValid p.Payload ∧ sliceValid bytesValid p.Signatures

instance (p : Proposal) : Decidable p.valid := by
  unfold Proposal.valid; infer_instance

def Preprepare.valid (p : Preprepare) : Prop :=
  ptrValid View.valid p.View ∧ ptrValid Proposal.valid p.Proposal

instance (p : Preprepare) : Decidable p.valid := by
  unfold Preprepare.valid; infer_instance

def Subject.valid (s : Subject) : Prop := ptrValid View.valid s.View ∧ bytesValid s.Digest

instance (s : Subject) : Decidable s.valid := by
  unfold Subject.valid; infer_instance

def ViewChange.valid (v : ViewChange) : Prop :=
  bigIntValid v.ViewNumber ∧ sliceValid (ptrValid Subject.valid) v.PSet ∧
    sliceValid (ptrValid Subject.valid) v.QSet ∧ ptrValid Proposal.valid v.Proposal

instance (v : ViewChange) : Decidable v.valid := by
  unfold ViewChange.valid; infer_instance

def SignedViewChange.valid (s : SignedViewChange) : Prop :=
  bytesValid s.Data ∧ bytesValid s.Signature

instance (s : SignedViewChange) : Decidable s.valid := by
  unfold SignedViewChange.valid; infer_instance

def NewView.valid (n : NewView) : Prop :=
  bigIntValid n.ViewNumber ∧ ptrValid SignedViewChange.valid n.VSet ∧
    ptrValid Subject.valid n.XSet ∧ ptrValid Proposal.valid n.Proposal

instance (n : NewView) : Decidable n.valid := by
  unfold NewView.valid; infer_instance

def Checkpoint.valid (c : Checkpoint) : Prop :=
  bigIntValid c.Sequence ∧ bytesValid c.Digest ∧ bytesValid c.Signature

instance (c : Checkpoint) : Decidable c.valid := by
  unfold Checkpoint.valid; infer_instance

/-- A value without nil pointer, nil slice or negative `*big.Int`. -/
def Value.valid : Value → Prop
  | .request r => r.valid
  | .preprepare p => p.valid
  | .subject s => s.valid
  | .viewChange v => v.valid
  | .newView n => n.valid
  | .checkpoint c => c.valid

instance (v : Value) : Decidable v.valid := by
  cases v <;> unfold Value.valid <;> infer_instance

/-! ### Decoders of the message structs

Modelled from the spec, on the struct declarations of `types.go`: the decoders package
`rlp` derives for the structs, field by field. A decoded `[]byte` is a fresh non-nil
slice (`make([]byte, size)`), a decoded slice is non-nil (`reflect.MakeSlice`), and a
pointer is set to a freshly allocated value (`reflect.New`), so the decoders never yield
nil. -/

def decodeByteSlice : Decoder (Slice Byte) := mapDec Slice.of decodeBytes

def decodeBigIntPtr : Decoder (Option Int) := mapDec some decodeBigInt

/-- Modelled from the spec: the decoder of a pointer of package `rlp`
(`makePtrDecoder`): a new value is allocated and decoded into. -/
def decodePtr {α : Type} (d : Decoder α) : Decoder (Option α) := mapDec some d

def decodeSlice {α : Type} (d : Decoder α) : Decoder (Slice α) :=
  mapDec Slice.of (decodeListSlice d)

def decodeRequest : Decoder Request :=
  decodeStruct (mapDec Request.mk decodeByteSlice)

def decodeView : Decoder View :=
  decodeStruct (mapDec (fun x => View.mk x.1 x.2) (andThen decodeBigIntPtr decodeBigIntPtr))

def decodeProposal : Decoder Proposal :=
  decodeStruct (mapDec (fun x => Proposal.mk x.1 x.2.1 x.2.2)
    (andThen decodeByteSlice (andThen decodeByteSlice (decodeSlice decodeByteSlice))))

def decodePreprepare : Decoder Preprepare :=
  decodeStruct (mapDec (fun x => Preprepare.mk x.1 x.2)
    (andThen (decodePtr decodeView) (decodePtr decodeProposal)))

def decodeSubject : Decoder Subject :=
  decodeStruct (mapDec (fun x => Subject.mk x.1 x.2)
    (andThen (decodePtr decodeView) decodeByteSlice))

def decodeViewChange : Decoder ViewChange :=
  decodeStruct (mapDec (fun x => ViewChange.mk x.1 x.2.1 x.2.2.1 x.2.2.2)
    (andThen decodeBigIntPtr
      (andThen (decodeSlice (decodePtr decodeSubject))
        (andThen (decodeSlice (decodePtr decodeSubject)) (decodePtr decodeProposal)))))

def decodeSignedViewChange : Decoder SignedViewChange :=
  decodeStruct (mapDec (fun x => SignedViewChange.mk x.1 x.2)
    (andThen decodeByteSlice decodeByteSlice))

def decodeNewView : Decoder NewView :=
  decodeStruct (mapDec (fun x => NewView.mk x.1 x.2.1 x.2.2.1 x.2.2.2)
    (andThen decodeBigIntPtr
      (andThen (decodePtr decodeSignedViewChange)
        (andThen (decodePtr decodeSubject) (decodePtr decodeProposal)))))

def decodeCheckpoint : Decoder Checkpoint :=
  decodeStruct (mapDec (fun x => Checkpoint.mk x.1 x.2.1 x.2.2)
    (andThen decodeBigIntPtr (andThen decodeByteSlice decodeByteSlice)))

/-- Modelled from the spec: `Stream.Decode(val)` of package `rlp`, which picks the decoder
from the dynamic type of `val` and reads one item from the stream. -/
def streamDecode : MsgType → Decoder Value
  | .request => mapDec Value.request decodeRequest
  | .preprepare => mapDec Value.preprepare decodePreprepare
  | .subject => mapDec Value.subject decodeSubject
  | .viewChange => mapDec Value.viewChange decodeViewChange
  | .newView => mapDec Value.newView decodeNewView
  | .checkpoint => mapDec Value.checkpoint decodeCheckpoint

/-- Modelled from the spec: `rlp.NewStream(bytes.NewReader(payload), inputLimit)`: the
bytes the stream may read. A positive limit caps the input; with limit zero the stream
takes the length of the byte reader as its limit. -/
def NewStream (payload : List Byte) (inputLimit : Nat) : List Byte :=
  if 0 < inputLimit then payload.take inputLimit else payload

/-! ### `Encode` and `Decode` -/

/-- The errors built with `fmt.Errorf` in `Encode` and `Decode`. -/
inductive CodecError
  | failedToEncode (code : Nat) (err : RlpError)
  | failedToDecode (code : Nat) (size : Nat) (err : RlpError)
  deriving DecidableEq

/-- `Decode(msg, val)`: the target is given by the type of `val`; on success the decoded
value is what `val` holds afterwards. -/
def Decode (msg : Message) (target : MsgType) : Except CodecError Value :=
  match streamDecode target (NewStream msg.Payload msg.Size) with
  | .error err => .error (.failedToDecode msg.Code msg.Size err)
  | .ok (v, _) => .ok v

/-- `Encode(code, val)`. The conversion `uint32(len(payload))` keeps the low 32 bits. -/
def Encode (code : Nat) (val : Value) : Except CodecError Message :=
  match EncodeToBytes val with
  | .error err => .error (.failedToEncode code err)
  | .ok payload => .ok { Code := code, Payload := payload, Size := payload.length % 2 ^ 32 }

/-- A payload of `2 ^ 32` zero bytes, for a `Request`. -/
def hugePayload : List Byte := List.replicate 4294967296 0

/-! ### What it means for a decoder to invert an encoder -/

/-- The decoder reads back every good value from its encoding, whatever follows it. The
bound on the length is the one every Go slice meets. -/
def Complete {α : Type} (enc : α → List Byte) (dec : Decoder α) (good : α → Prop) : Prop :=
  ∀ v rest, good v → (enc v).length < 2 ^ 64 → dec (enc v ++ rest) = .ok (v, rest)

/-- The decoder accepts nothing but the encoding of the good value it returns. -/
def Sound {α : Type} (enc : α → List Byte) (dec : Decoder α) (good : α → Prop) : Prop :=
  ∀ bs v rest, dec bs = .ok (v, rest) → good v ∧ bs = enc v ++ rest

/-! ## The signed envelope (`Message.Payload`, `Message.FromPayload` of `types_test.go`) -/

/-- Modelled from the spec: `common.Address`, the 20-byte sender address of an
envelope (spec §6); its declaration is not part of the sources at hand. -/
structure Address where
  bytes : List Byte
  size : bytes.length = 20
  deriving DecidableEq

/-- Modelled from the spec: the authentication errors (spec §7): the signer cannot be
recovered, or the recovered address is not a validator (`ErrNoMatchingValidator` in
`types_test.go`). -/
inductive AuthError
  | ErrInvalidSignature
  | ErrNoMatchingValidator
  deriving DecidableEq

/-- Modelled from the spec: the two errors of the envelope codec (spec §4.1, §7). -/
inductive EnvelopeError
  | MalformedMessageError
  | AuthenticationError (err : AuthError)
  deriving DecidableEq

/-- Modelled from the spec: the verification function handed to the decoder: from the
payload and the signature it recovers the signer, or fails. -/
abbrev ValidateFn := List Byte → List Byte → Except AuthError Address

/-- Modelled from the spec: the envelope on the wire (spec §6):
`(code: uint, senderAddress: 20-byte, payload: canonical-encoded bytes, signature: bytes)`. -/
structure Envelope where
  code : Nat
  senderAddress : Address
  payload : List Byte
  signature : List Byte
  deriving DecidableEq

def Envelope.encode (e : Envelope) : List Byte :=
  encodeList (encodeUint e.code ++
    (encodeString e.senderAddress.bytes ++ (encodeString e.payload ++ encodeString e.signature)))

/-- Modelled from the spec: decoder of a 20-byte array: a byte string of that length. -/
def decodeAddress : Decoder Address := fun bs =>
  match decodeBytes bs with
  | .error e => .error e
  | .ok (b, rest) =>
    if h : b.length = 20 then .ok (⟨b, h⟩, rest) else .error .wrongArrayLength

def decodeEnvelope : Decoder Envelope :=
  decodeStruct (mapDec (fun x => Envelope.mk x.1 x.2.1 x.2.2.1 x.2.2.2)
    (andThen (decodeUint 64) (andThen decodeAddress (andThen decodeBytes decodeBytes))))

/-- Modelled from the spec: the concrete type a kind indicates (spec §3, §4.1, §9):
a `Request` for Request, a `Preprepare` for Preprepare, a `Subject` for Prepare, Commit
and Checkpoint, a `ViewChange` for ViewChange, a `NewView` for NewView. The spec gives no
code for the Hello kind; any other code indicates no type. -/
def kindType (code : Nat) : Option MsgType :=
  if code = MsgRequest then some .request
  else if code = MsgPreprepare then some .preprepare
  else if code = MsgPrepare then some .subject
  else if code = MsgCommit then some .subject
  else if code = MsgCheckpoint then some .subject
  else if code = MsgViewChange then some .viewChange
  else if code = MsgNewView then some .newView
  else none

namespace signed

/-- Modelled from the spec: the typed envelope that `types_test.go` builds and compares:
`Message{Code, Msg, Address, Signature}`. Its declaration and its methods `Payload` and
`FromPayload` are not part of the sources at hand. -/
structure Message where
  Code : Nat
  Msg : Value
  Address : Address
  Signature : Slice Byte
  deriving DecidableEq

/-- Modelled from the spec: `Message.Payload` (spec §4.1, `Encode`): the typed message is
serialized canonically, stamped with its kind and wrapped with sender and signature. -/
def Message.Payload (m : Message) : Except EnvelopeError (List Byte) :=
  match EncodeToBytes m.Msg with
  | .error _ => .error .MalformedMessageError
  | .ok payload =>
    .ok (Envelope.encode
      { code := m.Code, senderAddress := m.Address, payload := payload,
        signature := Slice.elems m.Signature })

/-- Modelled from the spec: `Message.FromPayload(b, validateFn)` (spec §4.1, `Decode`):
the envelope is read and its payload is deserialized into the concrete type indicated by
its kind, which fails with `MalformedMessageError` when the payload does not match the
schema of that kind; then, if a verification function is supplied, the signer is
recovered from payload and signature, and a failure of that function is the result. -/
def FromPayload (b : List Byte) (validateFn : Option ValidateFn) :
    Except EnvelopeError Message :=
  match decodeEnvelope b with
  | .error _ => .error .MalformedMessageError
  | .ok (e, _) =>
    match kindType e.code with
    | none => .error .MalformedMessageError
    | some target =>
      match streamDecode target e.payload with
      | .error _ => .error .MalformedMessageError
      | .ok (msg, _) =>
        let m : Message :=
          { Code := e.code, Msg := msg, Address := e.senderAddress,
            Signature := .of e.signature }
        match validateFn with
        | none => .ok m
        | some fn =>
          match fn e.payload e.signature with
          | .error err => .error (.AuthenticationError err)
          | .ok _ => .ok m

end signed

/-- The envelope that `Payload` writes for a message whose `Msg` can be encoded. -/
def envelopeOf (m : signed.Message) : Envelope :=
  { code := m.Code, senderAddress := m.Address, payload := m.Msg.encode,
    signature := Slice.elems m.Signature }

/-! ### Values of `types_test.go` -/

/-- `common.HexToAddress("0x1234567890")`. -/
def testAddress : Address :=
  ⟨[0, 0, 0, 0, 0, 0, 0, 0, 0, 0, 0, 0, 0, 0, 0, 0x12, 0x34, 0x56, 0x78, 0x90], by decide⟩

/-- The view `&View{ViewNumber: big.NewInt(1), Sequence: big.NewInt(2)}` of the tests. -/
def testView : View := { ViewNumber := some 1, Sequence := some 2 }

/-- The subject built in `testSubject` and `testWithSignature`. -/
def testSubject : Subject := { View := some testView, Digest := .of [0x01, 0x02] }

/-- The message built in `testWithSignature`: a subject stamped `MsgPreprepare`. -/
def testMessage : signed.Message :=
  { Code := MsgPreprepare, Msg := .subject testSubject, Address := testAddress,
    Signature := .of [0x01] }

/-- The message of `testWithSignature` stamped `MsgPrepare`, the kind of a subject. -/
def prepareMessage : signed.Message := { testMessage with Code := MsgPrepare }

/-- The message `prepareMessage` with a nil `Signature`. -/
def nilSignatureMessage : signed.Message := { prepareMessage with Signature := .nil }

/-- The message `prepareMessage` whose subject has a nil `Digest`. -/
def nilDigestMessage : signed.Message :=
  { prepareMessage with Msg := .subject { testSubject with Digest := .nil } }

/-- The subject of the tests with a nil `View`. -/
def nilViewSubject : Subject := { testSubject with View := none }

/-- The message `prepareMessage` whose subject has a nil `View`. -/
def nilViewMessage : signed.Message := { prepareMessage with Msg := .subject nilViewSubject }

/-- A preprepare in the shape of `types.go` whose proposal has a non-nil `Signatures` of
length zero. -/
def unsignedPreprepare : Preprepare :=
  { View := some testView
    Proposal := some { Header := .of [0x0a], Payload := .of [0x02], Signatures := .of [] } }

/-- The same preprepare with a nil `Signatures`, also of length zero. -/
def nilSignaturesPreprepare : Preprepare :=
  { View := some testView
    Proposal := some { Header := .of [0x0a], Payload := .of [0x02], Signatures := .nil } }

/-- A verification function that always fails, as in step 2.3 of `testWithSignature`. -/
def failingValidateFn : ValidateFn := fun _ _ => .error .ErrNoMatchingValidator

/-- A verification function that always accepts, as in step 2.1 of `testWithSignature`. -/
def acceptingValidateFn : ValidateFn := fun _ _ =>
  .ok ⟨List.replicate 20 0, by decide⟩

/-! ## `core/connection.go` -/

/-- Modelled from the spec: the states of the consensus core (spec §4.4); the source at
hand names only `StateSync`. -/
inductive State
  | StateAcceptRequest
  | StatePreprepared
  | StatePrepared
  | StateCommitted
  | StateViewChanging
  | StateSync
  deriving DecidableEq

/-- Modelled from the spec: `pbft.Hello`, the peer-sync message carrying a `Preprepare`
(spec §4.6); `connection.go` builds it with the single field `Preprepare`. -/
structure Hello where
  Preprepare : Preprepare
  deriving DecidableEq

/-- Modelled from the spec: an entry of the snapshot history (spec §3, §4.3);
`connection.go` reads its field `Preprepare`. -/
structure snapshot where
  Preprepare : Preprepare
  deriving DecidableEq

/-- Modelled from the spec: `pbft.Validator`, of which `connection.go` calls
`Address()`. -/
structure Validator where
  Address : Address
  deriving DecidableEq

/-- One call `c.send(code, msg, target)`. -/
structure Sent where
  code : Nat
  msg : Hello
  target : Address
  deriving DecidableEq

/-- The part of `core` that `connection.go` touches. `snapshotsMu` counts the read-lock
holds on the mutex; `sent` records the calls of `c.send` in order; `Syncs` is the type
of `c.syncs`, declared elsewhere. -/
structure core (Syncs : Type) where
  state : State
  snapshots : List snapshot
  snapshotsMu : Nat
  syncs : Syncs
  sent : List Sent

namespace core

variable {Syncs : Type}

def RLock (c : core Syncs) : core Syncs := { c with snapshotsMu := c.snapshotsMu + 1 }

def RUnlock (c : core Syncs) : core Syncs := { c with snapshotsMu := c.snapshotsMu - 1 }

/-- Modelled from the spec: `c.send`, defined elsewhere in package `core`: the message is
handed to the transport for `target` (spec §2); here the call is recorded. -/
def send (c : core Syncs) (code : Nat) (msg : Hello) (target : Address) : core Syncs :=
  { c with sent := c.sent ++ [{ code := code, msg := msg, target := target }] }

/-- `sendHello`; `MsgHello` is the code of the Hello kind, a constant declared elsewhere.
`getLast?` is `none` exactly when `len(c.snapshots) == 0` and otherwise
`c.snapshots[len(c.snapshots)-1]`. -/
def sendHello (MsgHello : Nat) (c : core Syncs) (addr : Address) : core Syncs :=
  let c := c.RLock
  match c.snapshots.getLast? with
  | none => c
  | some snap =>
    let c := c.RUnlock
    let state : Hello := { Preprepare := snap.Preprepare }
    c.send MsgHello state addr

/-- `handleConnection`: the core after the call and the returned error (always `nil`). -/
def handleConnection {ε : Type} (MsgHello : Nat) (c : core Syncs) (addr : Address) :
    core Syncs × Option ε :=
  (c.sendHello MsgHello addr, none)

/-- `handleHello`; `AddCheckpoint` is the method of `c.syncs`, declared elsewhere: it
returns the store after the call and the error, if any. -/
def handleHello {ε : Type} (AddCheckpoint : Syncs → Preprepare → Address → Syncs × Option ε)
    (c : core Syncs) (hello : Hello) (src : Validator) : core Syncs × Option ε :=
  if c.state ≠ State.StateSync then (c, none)
  else
    match AddCheckpoint c.syncs hello.Preprepare src.Address with
    | (syncs, some err) => ({ c with syncs := syncs }, some err)
    | (syncs, none) => ({ c with syncs := syncs }, none)

end core

end pbft

/-! ## `backends/simulation/backend.go` -/

namespace simulation

/-- Modelled from the spec: the header fields of `types.Block` that `makeBlock` sets; the
block type is declared elsewhere. -/
structure Block where
  ParentHash : Nat
  Number : Int
  GasLimit : Int
  GasUsed : Int
  Extra : List pbft.Byte
  Time : Int
  deriving DecidableEq

/-- What `backend.Seal` returns: `(newBlock, err)`, either of which may be `nil`. -/
structure SealResult (ε : Type) where
  newBlock : Option Block
  err : Option ε

/-- The collaborators of the protocol manager that are declared elsewhere: the hash of a
block, the clock read by `makeBlock`, and the consensus backend with its `Seal`. -/
structure Env (Backend ε : Type) where
  Hash : Block → Nat
  Nanosecond : Nat → Int
  Seal : Backend → List Block → Block → Backend × SealResult ε

/-- The part of `ProtocolManager` that `commitBlock` and `newRequest` touch. `mockChain`
is the list of blocks handed to `InsertBlock`, in order; `clock` counts the readings of
the time. -/
structure ProtocolManager (Backend : Type) where
  backend : Backend
  mockChain : List Block
  clock : Nat

variable {Backend ε : Type}

/-- Modelled from the spec: `mockChain.InsertBlock`, which persists a block (spec §6). -/
def InsertBlock (pm : ProtocolManager Backend) (block : Block) : ProtocolManager Backend :=
  { pm with mockChain := pm.mockChain ++ [block] }

/-- `makeBlock(parent, num)` with the time read from the clock. -/
def makeBlock (env : Env Backend ε) (now : Nat) (parent : Block) (num : Int) : Block :=
  { ParentHash := env.Hash parent
    Number := num + 1
    GasLimit := 0
    GasUsed := 0
    Extra := parent.Extra
    Time := env.Nanosecond now }

/-! `commitBlock` and `newRequest` call each other for as long as `Seal` succeeds. The
first argument bounds the number of calls still allowed, and `none` means that the bound
was reached before the run returned. -/

mutual

/-- `commitBlock(block)`. -/
def commitBlock (env : Env Backend ε) :
    Nat → ProtocolManager Backend → Block → Option (ProtocolManager Backend)
  | 0, _, _ => none
  | fuel + 1, pm, block => newRequest env fuel (InsertBlock pm block) block

/-- `newRequest(lastBlock)`. -/
def newRequest (env : Env Backend ε) :
    Nat → ProtocolManager Backend → Block → Option (ProtocolManager Backend)
  | 0, _, _ => none
  | fuel + 1, pm, lastBlock =>
    let block := makeBlock env pm.clock lastBlock lastBlock.Number
    let pm := { pm with clock := pm.clock + 1 }
    let r := env.Seal pm.backend pm.mockChain block
    let pm := { pm with backend := r.1 }
    match r.2.newBlock, r.2.err with
    | some _, none => commitBlock env fuel pm block
    | _, _ => some pm

end

/-! ### A run of the simulation -/

def genesis : Block :=
  { ParentHash := 0, Number := 0, GasLimit := 0, GasUsed := 0, Extra := [], Time := 0 }

/-- A backend that is the proposer of the first block: the first `Seal` returns the block
finalized, its `Extra` extended by the seal; every later `Seal` returns an error. The
state of the backend is the number of calls of `Seal` so far. -/
def proposerOnce : Env Nat Unit :=
  { Hash := fun b => b.Number.toNat + 1
    Nanosecond := fun _ => 0
    Seal := fun calls _ block =>
      (calls + 1,
        if calls = 0 then
          { newBlock := some { block with Extra := block.Extra ++ [0x01] }, err := none }
        else { newBlock := none, err := some () }) }

def startManager : ProtocolManager Nat := { backend := 0, mockChain := [], clock := 0 }

/-- The block `newRequest(genesis)` hands to `Seal`. -/
def candidate : Block := makeBlock proposerOnce 0 genesis genesis.Number

/-- The block the first `Seal` returns. -/
def finalized : Block := { candidate with Extra := candidate.Extra ++ [0x01] }

end simulation
namespace pbft

/-! ## Big-endian bytes -/

theorem byte_val (n : Nat) : (byte n).val = n % 256 := rfl

theorem leBytes_map_val (fuel n : Nat) (h : n ≤ fuel) :
    (leBytes fuel n).map Fin.val = Nat.digits 256 n := by
  induction fuel generalizing n with
  | zero =>
    have : n = 0 := by omega
    subst this
    simp [leBytes]
  | succ f ih =>
    by_cases hn : n = 0
    · subst hn; simp [leBytes]
    · have hpos : 0 < n := Nat.pos_of_ne_zero hn
      have hdiv : n / 256 ≤ f := by
        have : n / 256 < n := Nat.div_lt_self hpos (by decide)
        omega
      rw [Nat.digits_def' (by decide) hpos]
      simp [leBytes, hn, ih _ hdiv, byte_val]

theorem beBytes_map_val (n : Nat) :
    (beBytes n).map Fin.val = (Nat.digits 256 n).reverse := by
  simp [beBytes, List.map_reverse, leBytes_map_val n n (le_refl n)]

theorem beValue_append_singleton (bs : List Byte) (b : Byte) :
    beValue (bs ++ [b]) = beValue bs * 256 + b.val := by
  simp [beValue, List.foldl_append]

theorem beValue_eq_ofDigits (bs : List Byte) :
    beValue bs = Nat.ofDigits 256 (bs.map Fin.val).reverse := by
  induction bs using List.reverseRecOn with
  | nil => simp [beValue]
  | append_singleton l a ih =>
    rw [beValue_append_singleton, ih]
    simp [Nat.ofDigits_cons]
    ring

theorem beValue_beBytes (n : Nat) : beValue (beBytes n) = n := by
  rw [beValue_eq_ofDigits, beBytes_map_val, List.reverse_reverse, Nat.ofDigits_digits]

theorem beBytes_eq_nil_iff (n : Nat) : beBytes n = [] ↔ n = 0 := by
  constructor
  · intro h
    have := beBytes_map_val n
    rw [h] at this
    simp at this
    exact Nat.digits_eq_nil_iff_eq_zero.mp this
  · intro h; subst h; rfl

theorem beBytes_head_ne_zero (n : Nat) : (beBytes n).head? ≠ some 0 := by
  intro h
  by_cases hn : n = 0
  · subst hn; simp [beBytes, leBytes] at h
  · have h1 : ((beBytes n).map Fin.val).head? = some 0 := by
      rw [List.head?_map, h]; rfl
    rw [beBytes_map_val, List.head?_reverse] at h1
    have h2 := Nat.getLast_digit_ne_zero 256 hn
    rw [List.getLast?_eq_getLast _ (Nat.digits_ne_nil_iff_ne_zero.mpr hn)] at h1
    exact h2 (Option.some.inj h1)

theorem beBytes_beValue (bs : List Byte) (h : bs.head? ≠ some 0) :
    beBytes (beValue bs) = bs := by
  apply List.map_injective_iff.mpr Fin.val_injective
  rw [beBytes_map_val, beValue_eq_ofDigits, Nat.digits_ofDigits 256 (by decide)]
  · simp
  · intro l hl
    simp only [List.mem_reverse, List.mem_map] at hl
    obtain ⟨a, _, rfl⟩ := hl
    exact a.isLt
  · intro hne
    rw [List.getLast_reverse]
    intro h0
    apply h
    cases bs with
    | nil => simp at hne
    | cons b t =>
      simp at h0
      simp
      exact Fin.ext h0

theorem leBytes_length_le (k fuel n : Nat) (h : n < 256 ^ k) : (leBytes fuel n).length ≤ k := by
  induction k generalizing fuel n with
  | zero =>
    have : n = 0 := by simpa using h
    subst this
    cases fuel <;> simp [leBytes]
  | succ k ih =>
    cases fuel with
    | zero => simp [leBytes]
    | succ f =>
      by_cases hn : n = 0
      · simp [leBytes, hn]
      · have : n / 256 < 256 ^ k := by
          rw [Nat.div_lt_iff_lt_mul (by decide)]
          rw [pow_succ] at h
          exact h
        simp [leBytes, hn]
        exact ih f _ this

theorem beBytes_length_le (k n : Nat) (h : n < 256 ^ k) : (beBytes n).length ≤ k := by
  simp only [beBytes, List.length_reverse]
  exact leBytes_length_le k n n h

theorem beBytes_length_pos (n : Nat) (h : n ≠ 0) : 0 < (beBytes n).length := by
  rw [List.length_pos]
  intro h0
  exact h ((beBytes_eq_nil_iff n).mp h0)

/-! ## Headers -/

theorem readUint_beBytes (n : Nat) (rest : List Byte) :
    readUint (beBytes n).length (beBytes n ++ rest) = .ok (n, rest) := by
  have hv := beValue_beBytes n
  have hh := beBytes_head_ne_zero n
  revert hv hh
  generalize beBytes n = l
  intro hv hh
  cases l with
  | nil =>
    simp only [beValue, List.foldl_nil] at hv
    subst hv
    simp [readUint]
  | cons a t =>
    cases t with
    | nil =>
      simp only [beValue, List.foldl_cons, List.foldl_nil, Nat.zero_mul, Nat.zero_add] at hv
      subst hv
      simp [readUint]
    | cons b t =>
      simp only [readUint, List.length_cons]
      have h1 : ¬ ((a :: b :: t ++ rest).length < t.length + 1 + 1) := by
        simp only [List.length_append, List.length_cons]; omega
      have h2 : (a :: b :: t ++ rest).take (t.length + 1 + 1) = a :: b :: t := by
        simp
      have h3 : (a :: b :: t ++ rest).drop (t.length + 1 + 1) = rest := by
        simp
      rw [if_neg h1, h2, h3, if_neg hh, hv]

theorem readUint_sound (k size : Nat) (t t' : List Byte)
    (h : readUint k t = .ok (size, t')) (hk : 1 ≤ k) (hs : size ≠ 0) :
    t = beBytes size ++ t' ∧ (beBytes size).length = k := by
  match k, hk with
  | 1, _ =>
    cases t with
    | nil => simp [readUint] at h
    | cons b r =>
      simp only [readUint, Except.ok.injEq, Prod.mk.injEq] at h
      obtain ⟨h1, h2⟩ := h
      subst h2
      have hb : beBytes (beValue [b]) = [b] := by
        apply beBytes_beValue
        simp
        intro h0
        apply hs
        rw [← h1, h0]; rfl
      have hv : beValue [b] = size := by simp [beValue, h1]
      rw [hv] at hb
      rw [hb]; simp
  | k + 2, _ =>
    simp only [readUint] at h
    split at h
    · simp at h
    · rename_i hlen
      split at h
      · simp at h
      · rename_i hhead
        simp only [Except.ok.injEq, Prod.mk.injEq] at h
        obtain ⟨h1, h2⟩ := h
        have hb := beBytes_beValue _ hhead
        rw [h1] at hb
        rw [hb, ← h2, List.take_append_drop]
        refine ⟨rfl, ?_⟩
        simp [List.length_take]
        omega

theorem byte_val_of_lt (n : Nat) (h : n < 256) : (byte n).val = n := by
  simp [byte_val, Nat.mod_eq_of_lt h]

theorem byte_val_self (b : Byte) : byte b.val = b := by
  apply Fin.ext
  simp [byte_val, Nat.mod_eq_of_lt b.isLt]

theorem readKind_puthead_string (size : Nat) (rest : List Byte) (h : size < 2 ^ 64) :
    readKind (puthead 0x80 0xB7 size ++ rest) = .ok (.string size, rest) := by
  unfold puthead
  by_cases hs : size < 56
  · have hv : (byte (0x80 + size)).val = 0x80 + size := byte_val_of_lt _ (by omega)
    simp only [if_pos hs, List.singleton_append, readKind, hv]
    rw [if_neg (by omega), if_pos (by omega)]
    simp
  · have hl := beBytes_length_le 8 size (by norm_num at h ⊢; exact h)
    have hp := beBytes_length_pos size (by omega)
    have hv : (byte (0xB7 + (beBytes size).length)).val = 0xB7 + (beBytes size).length :=
      byte_val_of_lt _ (by omega)
    simp only [if_neg hs, List.cons_append, readKind, hv]
    rw [if_neg (by omega), if_neg (by omega), if_pos (by omega)]
    simp only [Nat.add_sub_cancel_left, readLongSize, readUint_beBytes, if_neg hs]

theorem readKind_puthead_list (size : Nat) (rest : List Byte) (h : size < 2 ^ 64) :
    readKind (puthead 0xC0 0xF7 size ++ rest) = .ok (.list size, rest) := by
  unfold puthead
  by_cases hs : size < 56
  · have hv : (byte (0xC0 + size)).val = 0xC0 + size := byte_val_of_lt _ (by omega)
    simp only [if_pos hs, List.singleton_append, readKind, hv]
    rw [if_neg (by omega), if_neg (by omega), if_neg (by omega), if_pos (by omega)]
    simp
  · have hl := beBytes_length_le 8 size (by norm_num at h ⊢; exact h)
    have hp := beBytes_length_pos size (by omega)
    have hv : (byte (0xF7 + (beBytes size).length)).val = 0xF7 + (beBytes size).length :=
      byte_val_of_lt _ (by omega)
    simp only [if_neg hs, List.cons_append, readKind, hv]
    rw [if_neg (by omega), if_neg (by omega), if_neg (by omega), if_neg (by omega)]
    simp only [Nat.add_sub_cancel_left, readLongSize, readUint_beBytes, if_neg hs]

theorem puthead_length_pos (a b size : Nat) : 0 < (puthead a b size).length := by
  unfold puthead; split <;> simp

/-- What a successful `readKind` says about the input: the header read is the canonical
header of the announced size. -/
theorem readKind_sound (bs rest : List Byte) (hd : Head) (h : readKind bs = .ok (hd, rest)) :
    match hd with
    | .byte b => b.val < 0x80 ∧ bs = b :: rest
    | .string size => bs = puthead 0x80 0xB7 size ++ rest
    | .list size => bs = puthead 0xC0 0xF7 size ++ rest := by
  cases bs with
  | nil => simp [readKind] at h
  | cons x t =>
    simp only [readKind] at h
    have hx := x.isLt
    split at h
    · rename_i h1
      simp only [Except.ok.injEq, Prod.mk.injEq] at h
      obtain ⟨rfl, rfl⟩ := h
      exact ⟨h1, rfl⟩
    · split at h
      · simp only [Except.ok.injEq, Prod.mk.injEq] at h
        obtain ⟨rfl, rfl⟩ := h
        simp only [puthead]
        rw [if_pos (by omega)]
        have : 0x80 + (x.val - 0x80) = x.val := by omega
        simp [this, byte_val_self]
      · split at h
        · rename_i h3 h2 h1
          unfold readLongSize at h
          cases hr : readUint (x.val - 0xB7) t with
          | error e => simp [hr] at h
          | ok p =>
            obtain ⟨size, t'⟩ := p
            by_cases hsz : size < 56
            · simp [hr, hsz] at h
            · simp only [hr, if_neg hsz, Except.ok.injEq, Prod.mk.injEq] at h
              obtain ⟨rfl, rfl⟩ := h
              obtain ⟨e1, e2⟩ := readUint_sound _ _ _ _ hr (by omega) (by omega)
              simp only [puthead, if_neg hsz, e2]
              have : 0xB7 + (x.val - 0xB7) = x.val := by omega
              simp [this, byte_val_self, e1]
        · split at h
          · simp only [Except.ok.injEq, Prod.mk.injEq] at h
            obtain ⟨rfl, rfl⟩ := h
            simp only [puthead]
            rw [if_pos (by omega)]
            have : 0xC0 + (x.val - 0xC0) = x.val := by omega
            simp [this, byte_val_self]
          · rename_i h4 h3 h2 h1
            unfold readLongSize at h
            cases hr : readUint (x.val - 0xF7) t with
            | error e => simp [hr] at h
            | ok p =>
              obtain ⟨size, t'⟩ := p
              by_cases hsz : size < 56
              · simp [hr, hsz] at h
              · simp only [hr, if_neg hsz, Except.ok.injEq, Prod.mk.injEq] at h
                obtain ⟨rfl, rfl⟩ := h
                obtain ⟨e1, e2⟩ := readUint_sound _ _ _ _ hr (by omega) (by omega)
                simp only [puthead, if_neg hsz, e2]
                have : 0xF7 + (x.val - 0xF7) = x.val := by omega
                simp [this, byte_val_self, e1]


theorem kind_puthead_string (size : Nat) (rest : List Byte) (h : size < 2 ^ 64)
    (hl : size ≤ rest.length) :
    kind (puthead 0x80 0xB7 size ++ rest) = .ok (.string size, rest) := by
  simp only [kind, readKind_puthead_string size rest h]
  rw [if_neg (by omega)]

theorem kind_puthead_list (size : Nat) (rest : List Byte) (h : size < 2 ^ 64)
    (hl : size ≤ rest.length) :
    kind (puthead 0xC0 0xF7 size ++ rest) = .ok (.list size, rest) := by
  simp only [kind, readKind_puthead_list size rest h]
  rw [if_neg (by omega)]

theorem kind_sound (bs rest : List Byte) (hd : Head) (h : kind bs = .ok (hd, rest)) :
    match hd with
    | .byte b => b.val < 0x80 ∧ bs = b :: rest
    | .string size => bs = puthead 0x80 0xB7 size ++ rest ∧ size ≤ rest.length
    | .list size => bs = puthead 0xC0 0xF7 size ++ rest ∧ size ≤ rest.length := by
  unfold kind at h
  cases hr : readKind bs with
  | error e => simp [hr] at h
  | ok p =>
    obtain ⟨hd', rest'⟩ := p
    have hs := readKind_sound bs rest' hd' hr
    cases hd' with
    | byte b =>
      simp only [hr, Except.ok.injEq, Prod.mk.injEq] at h
      obtain ⟨rfl, rfl⟩ := h
      exact hs
    | string size =>
      simp only [hr] at h
      by_cases hsz : size > rest'.length
      · simp [hsz] at h
      · simp only [if_neg hsz, Except.ok.injEq, Prod.mk.injEq] at h
        obtain ⟨rfl, rfl⟩ := h
        exact ⟨hs, by omega⟩
    | list size =>
      simp only [hr] at h
      by_cases hsz : size > rest'.length
      · simp [hsz] at h
      · simp only [if_neg hsz, Except.ok.injEq, Prod.mk.injEq] at h
        obtain ⟨rfl, rfl⟩ := h
        exact ⟨hs, by omega⟩

theorem complete_bytes : Complete encodeString decodeBytes (fun _ => True) := by
  intro b rest _ hlen
  have key : ∀ (b : List Byte), b.length ≠ 1 → b.length < 2 ^ 64 →
      decodeBytes (puthead 0x80 0xB7 b.length ++ b ++ rest) = .ok (b, rest) := by
    intro b h1 h2
    rw [List.append_assoc]
    simp only [decodeBytes, kind_puthead_string b.length (b ++ rest) h2 (by simp)]
    rw [if_neg (by intro h; exact h1 h.1)]
    simp
  match b, hlen with
  | [], hlen => exact key [] (by simp) (by simp)
  | [x], hlen =>
    simp only [encodeString]
    by_cases hx : x.val ≤ 0x7F
    · simp only [if_pos hx, List.singleton_append, decodeBytes, kind, readKind]
      rw [if_pos (by omega)]
    · simp only [if_neg hx]
      rw [List.append_assoc]
      simp only [decodeBytes, kind_puthead_string 1 ([x] ++ rest) (by decide) (by simp)]
      rw [if_neg (by simp; omega)]
      simp
  | a :: b :: t, hlen =>
    have hl : (puthead 0x80 0xB7 (a :: b :: t).length ++ (a :: b :: t)).length < 2 ^ 64 := hlen
    exact key (a :: b :: t) (by simp) (by simp only [List.length_append] at hl; omega)

theorem encodeString_of_length_ne_one (b : List Byte) (h : b.length ≠ 1) :
    encodeString b = puthead 0x80 0xB7 b.length ++ b := by
  match b, h with
  | [], _ => rfl
  | [x], h => simp at h
  | _ :: _ :: _, _ => rfl

theorem sound_bytes : Sound encodeString decodeBytes (fun _ => True) := by
  intro bs b rest h
  refine ⟨trivial, ?_⟩
  unfold decodeBytes at h
  cases hk : kind bs with
  | error e => simp [hk] at h
  | ok p =>
    obtain ⟨hd, rest'⟩ := p
    have hs := kind_sound bs rest' hd hk
    cases hd with
    | byte x =>
      simp only [hk, Except.ok.injEq, Prod.mk.injEq] at h
      obtain ⟨rfl, rfl⟩ := h
      obtain ⟨h1, h2⟩ := hs
      simp only [encodeString]
      rw [if_pos (by omega)]
      simpa using h2
    | list size => simp [hk] at h
    | string size =>
      simp only [hk] at h
      obtain ⟨h1, h2⟩ := hs
      split at h
      · simp at h
      · rename_i hc
        simp only [Except.ok.injEq, Prod.mk.injEq] at h
        obtain ⟨rfl, rfl⟩ := h
        have hlen : (rest'.take size).length = size := by
          simp [List.length_take]; omega
        by_cases hone : size = 1
        · subst hone
          cases rest' with
          | nil => simp at h2
          | cons y t =>
            have hy : ¬ y.val < 128 := by
              intro hy
              apply hc
              simp [hy]
            simp only [List.take_succ_cons, List.take_zero, List.drop_succ_cons, List.drop_zero,
              encodeString]
            rw [if_neg (by omega), h1]
            simp
        · rw [encodeString_of_length_ne_one _ (by rw [hlen]; exact hone), hlen, h1,
            List.append_assoc, List.take_append_drop]

theorem complete_bigInt : Complete encodeBigInt decodeBigInt (fun i => 0 ≤ i) := by
  intro i rest hi hlen
  simp only [decodeBigInt, encodeBigInt, encodeUint] at *
  rw [complete_bytes (beBytes i.toNat) rest trivial hlen]
  simp only [if_neg (beBytes_head_ne_zero i.toNat), beValue_beBytes]
  congr 2
  exact Int.toNat_of_nonneg hi

theorem sound_bigInt : Sound encodeBigInt decodeBigInt (fun i => 0 ≤ i) := by
  intro bs i rest h
  unfold decodeBigInt at h
  cases hb : decodeBytes bs with
  | error e => simp [hb] at h
  | ok p =>
    obtain ⟨b, rest'⟩ := p
    simp only [hb] at h
    split at h
    · simp at h
    · rename_i hz
      simp only [Except.ok.injEq, Prod.mk.injEq] at h
      obtain ⟨rfl, rfl⟩ := h
      refine ⟨Int.ofNat_nonneg _, ?_⟩
      have := (sound_bytes bs b rest' hb).2
      have hn : (Int.ofNat (beValue b)).toNat = beValue b := Int.toNat_ofNat _
      simp only [encodeBigInt, encodeUint, hn, beBytes_beValue b hz]
      exact this


/-! ## Combinators -/

theorem encodeList_length (c : List Byte) :
    (encodeList c).length = (puthead 0xC0 0xF7 c.length).length + c.length := by
  simp [encodeList]

theorem decodeListHead_encodeList (c rest : List Byte) (h : c.length < 2 ^ 64) :
    decodeListHead (encodeList c ++ rest) = .ok (c, rest) := by
  simp only [decodeListHead, encodeList, List.append_assoc,
    kind_puthead_list c.length (c ++ rest) h (by simp)]
  simp

theorem decodeListHead_sound (bs c rest : List Byte) (h : decodeListHead bs = .ok (c, rest)) :
    bs = encodeList c ++ rest := by
  unfold decodeListHead at h
  cases hk : kind bs with
  | error e => simp [hk] at h
  | ok p =>
    obtain ⟨hd, rest'⟩ := p
    have hs := kind_sound bs rest' hd hk
    cases hd with
    | byte x => simp [hk] at h
    | string size => simp [hk] at h
    | list size =>
      simp only [hk, Except.ok.injEq, Prod.mk.injEq] at h
      obtain ⟨rfl, rfl⟩ := h
      obtain ⟨h1, h2⟩ := hs
      have hlen : (rest'.take size).length = size := by
        simp [List.length_take]; omega
      rw [encodeList, hlen, List.append_assoc, List.take_append_drop]
      exact h1

theorem complete_struct {α : Type} {e : α → List Byte} {d : Decoder α} {g : α → Prop}
    (hc : Complete e d g) : Complete (fun v => encodeList (e v)) (decodeStruct d) g := by
  intro v rest hg hlen
  have hl : (e v).length < 2 ^ 64 := by
    have := encodeList_length (e v)
    simp only at hlen
    omega
  have h1 := hc v [] hg hl
  rw [List.append_nil] at h1
  simp only [decodeStruct, decodeListHead_encodeList (e v) rest hl, h1]

theorem sound_struct {α : Type} {e : α → List Byte} {d : Decoder α} {g : α → Prop}
    (hs : Sound e d g) : Sound (fun v => encodeList (e v)) (decodeStruct d) g := by
  intro bs v rest h
  unfold decodeStruct at h
  cases hh : decodeListHead bs with
  | error err => simp [hh] at h
  | ok p =>
    obtain ⟨c, after⟩ := p
    simp only [hh] at h
    cases hf : d c with
    | error err => simp [hf] at h
    | ok q =>
      obtain ⟨v', r⟩ := q
      cases r with
      | cons x t => simp [hf] at h
      | nil =>
        simp only [hf, Except.ok.injEq, Prod.mk.injEq] at h
        obtain ⟨rfl, rfl⟩ := h
        obtain ⟨hg, hc⟩ := hs c v' [] hf
        rw [List.append_nil] at hc
        refine ⟨hg, ?_⟩
        simp only
        rw [← hc]
        exact decodeListHead_sound bs c after hh

theorem complete_andThen {α β : Type} {e1 : α → List Byte} {d1 : Decoder α} {g1 : α → Prop}
    {e2 : β → List Byte} {d2 : Decoder β} {g2 : β → Prop}
    (h1 : Complete e1 d1 g1) (h2 : Complete e2 d2 g2) :
    Complete (fun x : α × β => e1 x.1 ++ e2 x.2) (andThen d1 d2) (fun x => g1 x.1 ∧ g2 x.2) := by
  intro v rest hg hlen
  simp only [List.length_append] at hlen
  simp only [andThen, List.append_assoc, h1 v.1 _ hg.1 (by omega), h2 v.2 _ hg.2 (by omega)]

theorem sound_andThen {α β : Type} {e1 : α → List Byte} {d1 : Decoder α} {g1 : α → Prop}
    {e2 : β → List Byte} {d2 : Decoder β} {g2 : β → Prop}
    (h1 : Sound e1 d1 g1) (h2 : Sound e2 d2 g2) :
    Sound (fun x : α × β => e1 x.1 ++ e2 x.2) (andThen d1 d2) (fun x => g1 x.1 ∧ g2 x.2) := by
  intro bs v rest h
  unfold andThen at h
  cases ha : d1 bs with
  | error err => simp [ha] at h
  | ok p =>
    obtain ⟨a, r1⟩ := p
    simp only [ha] at h
    cases hb : d2 r1 with
    | error err => simp [hb] at h
    | ok q =>
      obtain ⟨b, r2⟩ := q
      simp only [hb, Except.ok.injEq, Prod.mk.injEq] at h
      obtain ⟨rfl, rfl⟩ := h
      obtain ⟨ga, ea⟩ := h1 bs a r1 ha
      obtain ⟨gb, eb⟩ := h2 r1 b r2 hb
      refine ⟨⟨ga, gb⟩, ?_⟩
      simp only [List.append_assoc]
      rw [← eb]
      exact ea

theorem complete_mapDec {α β : Type} {e : α → List Byte} {d : Decoder α} {g : α → Prop}
    (f : α → β) (p : β → α) (e' : β → List Byte) (g' : β → Prop)
    (hc : Complete e d g) (hf : ∀ v, g' v → f (p v) = v) (he : ∀ v, e' v = e (p v))
    (hg : ∀ v, g' v → g (p v)) : Complete e' (mapDec f d) g' := by
  intro v rest hgv hlen
  rw [he] at hlen ⊢
  simp only [mapDec, hc (p v) rest (hg v hgv) hlen, hf v hgv]

theorem sound_mapDec {α β : Type} {e : α → List Byte} {d : Decoder α} {g : α → Prop}
    (f : α → β) (e' : β → List Byte) (g' : β → Prop)
    (hs : Sound e d g) (he : ∀ a, e' (f a) = e a) (hg : ∀ a, g a → g' (f a)) :
    Sound e' (mapDec f d) g' := by
  intro bs v rest h
  unfold mapDec at h
  cases ha : d bs with
  | error err => simp [ha] at h
  | ok q =>
    obtain ⟨a, r⟩ := q
    simp only [ha, Except.ok.injEq, Prod.mk.injEq] at h
    obtain ⟨rfl, rfl⟩ := h
    obtain ⟨ga, ea⟩ := hs bs a r ha
    exact ⟨hg a ga, by rw [he]; exact ea⟩

theorem decodeElems_complete {α : Type} {e : α → List Byte} {d : Decoder α} {g : α → Prop}
    (hc : Complete e d g) (hne : ∀ v, e v ≠ []) (vs : List α) (fuel : Nat)
    (hg : ∀ v ∈ vs, g v) (hlen : (vs.map e).flatten.length < 2 ^ 64)
    (hfuel : (vs.map e).flatten.length ≤ fuel) :
    decodeElems d fuel (vs.map e).flatten = .ok vs := by
  induction vs generalizing fuel with
  | nil => cases fuel <;> simp [decodeElems]
  | cons v vs ih =>
    simp only [List.map_cons, List.flatten_cons, List.length_append] at hlen hfuel ⊢
    have hpos : 0 < (e v).length := List.length_pos.mpr (hne v)
    cases fuel with
    | zero => omega
    | succ f =>
      have hd := hc v (vs.map e).flatten (hg v (List.mem_cons_self _ _)) (by omega)
      cases hev : e v ++ (vs.map e).flatten with
      | nil =>
        have := congrArg List.length hev
        simp only [List.length_append, List.length_nil] at this
        omega
      | cons b bs =>
        rw [hev] at hd
        simp only [decodeElems, hd,
          ih f (fun w hw => hg w (List.mem_cons_of_mem _ hw)) (by omega) (by omega)]

theorem decodeElems_sound {α : Type} {e : α → List Byte} {d : Decoder α} {g : α → Prop}
    (hs : Sound e d g) (fuel : Nat) (bs : List Byte) (vs : List α)
    (h : decodeElems d fuel bs = .ok vs) :
    (∀ v ∈ vs, g v) ∧ bs = (vs.map e).flatten := by
  induction fuel generalizing bs vs with
  | zero =>
    cases bs with
    | nil =>
      simp only [decodeElems, Except.ok.injEq] at h
      subst h
      simp
    | cons b t => simp [decodeElems] at h
  | succ f ih =>
    cases bs with
    | nil =>
      simp only [decodeElems, Except.ok.injEq] at h
      subst h
      simp
    | cons b t =>
      simp only [decodeElems] at h
      cases hd : d (b :: t) with
      | error err => simp [hd] at h
      | ok q =>
        obtain ⟨v, r⟩ := q
        simp only [hd] at h
        cases hr : decodeElems d f r with
        | error err => simp [hr] at h
        | ok ws =>
          simp only [hr, Except.ok.injEq] at h
          subst h
          obtain ⟨gv, ev⟩ := hs _ v r hd
          obtain ⟨gw, ew⟩ := ih r ws hr
          constructor
          · intro w hw
            rcases List.mem_cons.mp hw with rfl | hw
            · exact gv
            · exact gw w hw
          · simp only [List.map_cons, List.flatten_cons]
            rw [← ew]
            exact ev

theorem complete_slice {α : Type} {e : α → List Byte} {d : Decoder α} {g : α → Prop}
    (hc : Complete e d g) (hne : ∀ v, e v ≠ []) :
    Complete (fun vs : List α => encodeList (vs.map e).flatten) (decodeListSlice d)
      (fun vs => ∀ v ∈ vs, g v) := by
  intro vs rest hg hlen
  have hl : (vs.map e).flatten.length < 2 ^ 64 := by
    have := encodeList_length (vs.map e).flatten
    simp only at hlen
    omega
  simp only [decodeListSlice, decodeListHead_encodeList _ rest hl,
    decodeElems_complete hc hne vs _ hg hl (le_refl _)]

theorem sound_slice {α : Type} {e : α → List Byte} {d : Decoder α} {g : α → Prop}
    (hs : Sound e d g) :
    Sound (fun vs : List α => encodeList (vs.map e).flatten) (decodeListSlice d)
      (fun vs => ∀ v ∈ vs, g v) := by
  intro bs vs rest h
  unfold decodeListSlice at h
  cases hh : decodeListHead bs with
  | error err => simp [hh] at h
  | ok p =>
    obtain ⟨c, after⟩ := p
    simp only [hh] at h
    cases hr : decodeElems d c.length c with
    | error err => simp [hr] at h
    | ok ws =>
      simp only [hr, Except.ok.injEq, Prod.mk.injEq] at h
      obtain ⟨rfl, rfl⟩ := h
      obtain ⟨gw, ew⟩ := decodeElems_sound hs _ c ws hr
      refine ⟨gw, ?_⟩
      simp only
      rw [← ew]
      exact decodeListHead_sound bs c after hh

theorem encodeString_ne_nil (b : List Byte) : encodeString b ≠ [] := by
  intro h
  have := congrArg List.length h
  match b with
  | [] => simp [encodeString, puthead] at this
  | [x] =>
    simp only [encodeString] at this
    split at this <;> simp [puthead] at this
  | _ :: _ :: _ =>
    simp only [encodeString, List.length_append, List.length_nil, List.length_cons] at this
    omega

theorem encodeList_ne_nil (c : List Byte) : encodeList c ≠ [] := by
  intro h
  have h1 := congrArg List.length h
  have h2 := puthead_length_pos 0xC0 0xF7 c.length
  simp only [encodeList, List.length_append, List.length_nil] at h1
  omega


/-! ## The message structs -/

theorem complete_byteSlice : Complete encodeByteSlice decodeByteSlice bytesValid := by
  intro v rest hv hlen
  cases v with
  | nil => exact absurd hv (by simp [bytesValid, sliceValid])
  | of l =>
    simp only [decodeByteSlice, mapDec, encodeByteSlice, Slice.elems] at hlen ⊢
    rw [complete_bytes l rest trivial hlen]

theorem sound_byteSlice : Sound encodeByteSlice decodeByteSlice bytesValid :=
  sound_mapDec Slice.of encodeByteSlice bytesValid sound_bytes (fun _ => rfl)
    (by intro a _; simp [bytesValid, sliceValid])

theorem encodeByteSlice_ne_nil (b : Slice Byte) : encodeByteSlice b ≠ [] :=
  encodeString_ne_nil _

theorem complete_bigIntPtr : Complete encodeBigIntPtr decodeBigIntPtr bigIntValid := by
  intro v rest hv hlen
  cases v with
  | none => exact absurd hv (by simp [bigIntValid, ptrValid])
  | some i =>
    simp only [decodeBigIntPtr, mapDec, encodeBigIntPtr] at hlen ⊢
    rw [complete_bigInt i rest hv hlen]

theorem sound_bigIntPtr : Sound encodeBigIntPtr decodeBigIntPtr bigIntValid :=
  sound_mapDec some encodeBigIntPtr bigIntValid sound_bigInt (fun _ => rfl)
    (by intro a h; exact h)

theorem complete_ptr {α : Type} {e : α → List Byte} {d : Decoder α} {g : α → Prop}
    (hc : Complete e d g) : Complete (encodePtr e) (decodePtr d) (ptrValid g) := by
  intro v rest hv hlen
  cases v with
  | none => exact absurd hv (by simp [ptrValid])
  | some a =>
    simp only [decodePtr, mapDec, encodePtr] at hlen ⊢
    rw [hc a rest hv hlen]

theorem sound_ptr {α : Type} {e : α → List Byte} {d : Decoder α} {g : α → Prop}
    (hs : Sound e d g) : Sound (encodePtr e) (decodePtr d) (ptrValid g) :=
  sound_mapDec some (encodePtr e) (ptrValid g) hs (fun _ => rfl) (by intro a h; exact h)

theorem complete_goSlice {α : Type} {e : α → List Byte} {d : Decoder α} {g : α → Prop}
    (hc : Complete e d g) (hne : ∀ v, e v ≠ []) :
    Complete (encodeSlice e) (decodeSlice d) (sliceValid g) := by
  intro v rest hv hlen
  cases v with
  | nil => exact absurd hv (by simp [sliceValid])
  | of l =>
    simp only [decodeSlice, mapDec, encodeSlice, Slice.elems] at hlen ⊢
    rw [complete_slice hc hne l rest hv hlen]

theorem sound_goSlice {α : Type} {e : α → List Byte} {d : Decoder α} {g : α → Prop}
    (hs : Sound e d g) : Sound (encodeSlice e) (decodeSlice d) (sliceValid g) :=
  sound_mapDec Slice.of (encodeSlice e) (sliceValid g) (sound_slice hs) (fun _ => rfl)
    (by intro a h; exact h)

theorem encodePtr_ne_nil {α : Type} (e : α → List Byte) (hne : ∀ v, e v ≠ [])
    (o : Option α) : encodePtr e o ≠ [] := by
  cases o with
  | none => exact encodeList_ne_nil _
  | some a => exact hne a

theorem complete_Request : Complete Request.encode decodeRequest Request.valid := by
  have hparts := complete_byteSlice
  have hfields : Complete (fun r : Request => encodeByteSlice r.Payload)
      (mapDec (Request.mk) _) Request.valid :=
    complete_mapDec (Request.mk)
      (fun r : Request => r.Payload) _ _ hparts
      (fun _ _ => rfl) (fun _ => rfl) (by intro _ h; exact h)
  exact complete_struct hfields

theorem sound_Request : Sound Request.encode decodeRequest Request.valid := by
  have hparts := sound_byteSlice
  have hfields : Sound (fun r : Request => encodeByteSlice r.Payload)
      (mapDec (Request.mk) _) Request.valid :=
    sound_mapDec (Request.mk) _ _ hparts
      (fun _ => rfl) (by intro _ h; exact h)
  exact sound_struct hfields

theorem complete_View : Complete View.encode decodeView View.valid := by
  have hparts := complete_andThen complete_bigIntPtr complete_bigIntPtr
  have hfields : Complete (fun v : View => encodeBigIntPtr v.ViewNumber ++ encodeBigIntPtr v.Sequence)
      (mapDec (fun x : Option Int × Option Int => View.mk x.1 x.2) _) View.valid :=
    complete_mapDec (fun x : Option Int × Option Int => View.mk x.1 x.2)
      (fun v : View => (v.ViewNumber, v.Sequence)) _ _ hparts
      (fun _ _ => rfl) (fun _ => rfl) (by intro _ h; exact h)
  exact complete_struct hfields

theorem sound_View : Sound View.encode decodeView View.valid := by
  have hparts := sound_andThen sound_bigIntPtr sound_bigIntPtr
  have hfields : Sound (fun v : View => encodeBigIntPtr v.ViewNumber ++ encodeBigIntPtr v.Sequence)
      (mapDec (fun x : Option Int × Option Int => View.mk x.1 x.2) _) View.valid :=
    sound_mapDec (fun x : Option Int × Option Int => View.mk x.1 x.2) _ _ hparts
      (fun _ => rfl) (by intro _ h; exact h)
  exact sound_struct hfields

theorem complete_Proposal : Complete Proposal.encode decodeProposal Proposal.valid := by
  have hparts := complete_andThen complete_byteSlice (complete_andThen complete_byteSlice (complete_goSlice complete_byteSlice encodeByteSlice_ne_nil))
  have hfields : Complete (fun p : Proposal => encodeByteSlice p.Header ++
        (encodeByteSlice p.Payload ++ encodeSlice encodeByteSlice p.Signatures))
      (mapDec (fun x : Slice Byte × Slice Byte × Slice (Slice Byte) => Proposal.mk x.1 x.2.1 x.2.2) _) Proposal.valid :=
    complete_mapDec (fun x : Slice Byte × Slice Byte × Slice (Slice Byte) => Proposal.mk x.1 x.2.1 x.2.2)
      (fun p : Proposal => (p.Header, p.Payload, p.Signatures)) _ _ hparts
      (fun _ _ => rfl) (fun _ => rfl) (by intro _ h; exact h)
  exact complete_struct hfields

theorem sound_Proposal : Sound Proposal.encode decodeProposal Proposal.valid := by
  have hparts := sound_andThen sound_byteSlice (sound_andThen sound_byteSlice (sound_goSlice sound_byteSlice))
  have hfields : Sound (fun p : Proposal => encodeByteSlice p.Header ++
        (encodeByteSlice p.Payload ++ encodeSlice encodeByteSlice p.Signatures))
      (mapDec (fun x : Slice Byte × Slice Byte × Slice (Slice Byte) => Proposal.mk x.1 x.2.1 x.2.2) _) Proposal.valid :=
    sound_mapDec (fun x : Slice Byte × Slice Byte × Slice (Slice Byte) => Proposal.mk x.1 x.2.1 x.2.2) _ _ hparts
      (fun _ => rfl) (by intro _ h; exact h)
  exact sound_struct hfields

theorem complete_Preprepare : Complete Preprepare.encode decodePreprepare Preprepare.valid := by
  have hparts := complete_andThen (complete_ptr complete_View) (complete_ptr complete_Proposal)
  have hfields : Complete (fun p : Preprepare => encodePtr View.encode p.View ++ encodePtr Proposal.encode p.Proposal)
      (mapDec (fun x : Option View × Option Proposal => Preprepare.mk x.1 x.2) _) Preprepare.valid :=
    complete_mapDec (fun x : Option View × Option Proposal => Preprepare.mk x.1 x.2)
      (fun p : Preprepare => (p.View, p.Proposal)) _ _ hparts
      (fun _ _ => rfl) (fun _ => rfl) (by intro _ h; exact h)
  exact complete_struct hfields

theorem sound_Preprepare : Sound Preprepare.encode decodePreprepare Preprepare.valid := by
  have hparts := sound_andThen (sound_ptr sound_View) (sound_ptr sound_Proposal)
  have hfields : Sound (fun p : Preprepare => encodePtr View.encode p.View ++ encodePtr Proposal.encode p.Proposal)
      (mapDec (fun x : Option View × Option Proposal => Preprepare.mk x.1 x.2) _) Preprepare.valid :=
    sound_mapDec (fun x : Option View × Option Proposal => Preprepare.mk x.1 x.2) _ _ hparts
      (fun _ => rfl) (by intro _ h; exact h)
  exact sound_struct hfields

theorem complete_Subject : Complete Subject.encode decodeSubject Subject.valid := by
  have hparts := complete_andThen (complete_ptr complete_View) complete_byteSlice
  have hfields : Complete (fun s : Subject => encodePtr View.encode s.View ++ encodeByteSlice s.Digest)
      (mapDec (fun x : Option View × Slice Byte => Subject.mk x.1 x.2) _) Subject.valid :=
    complete_mapDec (fun x : Option View × Slice Byte => Subject.mk x.1 x.2)
      (fun s : Subject => (s.View, s.Digest)) _ _ hparts
      (fun _ _ => rfl) (fun _ => rfl) (by intro _ h; exact h)
  exact complete_struct hfields

theorem sound_Subject : Sound Subject.encode decodeSubject Subject.valid := by
  have hparts := sound_andThen (sound_ptr sound_View) sound_byteSlice
  have hfields : Sound (fun s : Subject => encodePtr View.encode s.View ++ encodeByteSlice s.Digest)
      (mapDec (fun x : Option View × Slice Byte => Subject.mk x.1 x.2) _) Subject.valid :=
    sound_mapDec (fun x : Option View × Slice Byte => Subject.mk x.1 x.2) _ _ hparts
      (fun _ => rfl) (by intro _ h; exact h)
  exact sound_struct hfields

theorem Subject.encode_ne_nil (s : Subject) : s.encode ≠ [] := encodeList_ne_nil _

theorem complete_Subjects :
    Complete (encodeSlice (encodePtr Subject.encode)) (decodeSlice (decodePtr decodeSubject))
      (sliceValid (ptrValid Subject.valid)) :=
  complete_goSlice (complete_ptr complete_Subject)
    (encodePtr_ne_nil Subject.encode Subject.encode_ne_nil)

theorem sound_Subjects :
    Sound (encodeSlice (encodePtr Subject.encode)) (decodeSlice (decodePtr decodeSubject))
      (sliceValid (ptrValid Subject.valid)) :=
  sound_goSlice (sound_ptr sound_Subject)

theorem complete_ViewChange : Complete ViewChange.encode decodeViewChange ViewChange.valid := by
  have hparts := complete_andThen complete_bigIntPtr
      (complete_andThen complete_Subjects (complete_andThen complete_Subjects (complete_ptr complete_Proposal)))
  have hfields : Complete (fun v : ViewChange => encodeBigIntPtr v.ViewNumber ++
        (encodeSlice (encodePtr Subject.encode) v.PSet ++
          (encodeSlice (encodePtr Subject.encode) v.QSet ++
            encodePtr Proposal.encode v.Proposal)))
      (mapDec (fun x : Option Int × Slice (Option Subject) × Slice (Option Subject) × Option Proposal =>
        ViewChange.mk x.1 x.2.1 x.2.2.1 x.2.2.2) _) ViewChange.valid :=
    complete_mapDec (fun x : Option Int × Slice (Option Subject) × Slice (Option Subject) × Option Proposal =>
        ViewChange.mk x.1 x.2.1 x.2.2.1 x.2.2.2)
      (fun v : ViewChange => (v.ViewNumber, v.PSet, v.QSet, v.Proposal)) _ _ hparts
      (fun _ _ => rfl) (fun _ => rfl) (by intro _ h; exact h)
  exact complete_struct hfields

theorem sound_ViewChange : Sound ViewChange.encode decodeViewChange ViewChange.valid := by
  have hparts := sound_andThen sound_bigIntPtr
      (sound_andThen sound_Subjects (sound_andThen sound_Subjects (sound_ptr sound_Proposal)))
  have hfields : Sound (fun v : ViewChange => encodeBigIntPtr v.ViewNumber ++
        (encodeSlice (encodePtr Subject.encode) v.PSet ++
          (encodeSlice (encodePtr Subject.encode) v.QSet ++
            encodePtr Proposal.encode v.Proposal)))
      (mapDec (fun x : Option Int × Slice (Option Subject) × Slice (Option Subject) × Option Proposal =>
        ViewChange.mk x.1 x.2.1 x.2.2.1 x.2.2.2) _) ViewChange.valid :=
    sound_mapDec (fun x : Option Int × Slice (Option Subject) × Slice (Option Subject) × Option Proposal =>
        ViewChange.mk x.1 x.2.1 x.2.2.1 x.2.2.2) _ _ hparts
      (fun _ => rfl) (by intro _ h; exact h)
  exact sound_struct hfields

theorem complete_SignedViewChange : Complete SignedViewChange.encode decodeSignedViewChange SignedViewChange.valid := by
  have hparts := complete_andThen complete_byteSlice complete_byteSlice
  have hfields : Complete (fun s : SignedViewChange => encodeByteSlice s.Data ++ encodeByteSlice s.Signature)
      (mapDec (fun x : Slice Byte × Slice Byte => SignedViewChange.mk x.1 x.2) _) SignedViewChange.valid :=
    complete_mapDec (fun x : Slice Byte × Slice Byte => SignedViewChange.mk x.1 x.2)
      (fun s : SignedViewChange => (s.Data, s.Signature)) _ _ hparts
      (fun _ _ => rfl) (fun _ => rfl) (by intro _ h; exact h)
  exact complete_struct hfields

theorem sound_SignedViewChange : Sound SignedViewChange.encode decodeSignedViewChange SignedViewChange.valid := by
  have hparts := sound_andThen sound_byteSlice sound_byteSlice
  have hfields : Sound (fun s : SignedViewChange => encodeByteSlice s.Data ++ encodeByteSlice s.Signature)
      (mapDec (fun x : Slice Byte × Slice Byte => SignedViewChange.mk x.1 x.2) _) SignedViewChange.valid :=
    sound_mapDec (fun x : Slice Byte × Slice Byte => SignedViewChange.mk x.1 x.2) _ _ hparts
      (fun _ => rfl) (by intro _ h; exact h)
  exact sound_struct hfields

theorem complete_NewView : Complete NewView.encode decodeNewView NewView.valid := by
  have hparts := complete_andThen complete_bigIntPtr
      (complete_andThen (complete_ptr complete_SignedViewChange)
        (complete_andThen (complete_ptr complete_Subject) (complete_ptr complete_Proposal)))
  have hfields : Complete (fun n : NewView => encodeBigIntPtr n.ViewNumber ++
        (encodePtr SignedViewChange.encode n.VSet ++
          (encodePtr Subject.encode n.XSet ++ encodePtr Proposal.encode n.Proposal)))
      (mapDec (fun x : Option Int × Option SignedViewChange × Option Subject × Option Proposal =>
        NewView.mk x.1 x.2.1 x.2.2.1 x.2.2.2) _) NewView.valid :=
    complete_mapDec (fun x : Option Int × Option SignedViewChange × Option Subject × Option Proposal =>
        NewView.mk x.1 x.2.1 x.2.2.1 x.2.2.2)
      (fun n : NewView => (n.ViewNumber, n.VSet, n.XSet, n.Proposal)) _ _ hparts
      (fun _ _ => rfl) (fun _ => rfl) (by intro _ h; exact h)
  exact complete_struct hfields

theorem sound_NewView : Sound NewView.encode decodeNewView NewView.valid := by
  have hparts := sound_andThen sound_bigIntPtr
      (sound_andThen (sound_ptr sound_SignedViewChange)
        (sound_andThen (sound_ptr sound_Subject) (sound_ptr sound_Proposal)))
  have hfields : Sound (fun n : NewView => encodeBigIntPtr n.ViewNumber ++
        (encodePtr SignedViewChange.encode n.VSet ++
          (encodePtr Subject.encode n.XSet ++ encodePtr Proposal.encode n.Proposal)))
      (mapDec (fun x : Option Int × Option SignedViewChange × Option Subject × Option Proposal =>
        NewView.mk x.1 x.2.1 x.2.2.1 x.2.2.2) _) NewView.valid :=
    sound_mapDec (fun x : Option Int × Option SignedViewChange × Option Subject × Option Proposal =>
        NewView.mk x.1 x.2.1 x.2.2.1 x.2.2.2) _ _ hparts
      (fun _ => rfl) (by intro _ h; exact h)
  exact sound_struct hfields

theorem complete_Checkpoint : Complete Checkpoint.encode decodeCheckpoint Checkpoint.valid := by
  have hparts := complete_andThen complete_bigIntPtr (complete_andThen complete_byteSlice complete_byteSlice)
  have hfields : Complete (fun c : Checkpoint => encodeBigIntPtr c.Sequence ++
        (encodeByteSlice c.Digest ++ encodeByteSlice c.Signature))
      (mapDec (fun x : Option Int × Slice Byte × Slice Byte => Checkpoint.mk x.1 x.2.1 x.2.2) _) Checkpoint.valid :=
    complete_mapDec (fun x : Option Int × Slice Byte × Slice Byte => Checkpoint.mk x.1 x.2.1 x.2.2)
      (fun c : Checkpoint => (c.Sequence, c.Digest, c.Signature)) _ _ hparts
      (fun _ _ => rfl) (fun _ => rfl) (by intro _ h; exact h)
  exact complete_struct hfields

theorem sound_Checkpoint : Sound Checkpoint.encode decodeCheckpoint Checkpoint.valid := by
  have hparts := sound_andThen sound_bigIntPtr (sound_andThen sound_byteSlice sound_byteSlice)
  have hfields : Sound (fun c : Checkpoint => encodeBigIntPtr c.Sequence ++
        (encodeByteSlice c.Digest ++ encodeByteSlice c.Signature))
      (mapDec (fun x : Option Int × Slice Byte × Slice Byte => Checkpoint.mk x.1 x.2.1 x.2.2) _) Checkpoint.valid :=
    sound_mapDec (fun x : Option Int × Slice Byte × Slice Byte => Checkpoint.mk x.1 x.2.1 x.2.2) _ _ hparts
      (fun _ => rfl) (by intro _ h; exact h)
  exact sound_struct hfields

/-- Stream decoding of the canonical bytes of a valid value, followed by anything,
gives the value back and leaves what follows unread. -/
theorem streamDecode_encode (v : Value) (rest : List Byte) (hv : v.valid)
    (hlen : v.encode.length < 2 ^ 64) :
    streamDecode v.type (v.encode ++ rest) = .ok (v, rest) := by
  cases v with
  | request r => simp only [streamDecode, Value.type, mapDec, Value.encode,
      complete_Request r rest hv hlen]
  | preprepare p => simp only [streamDecode, Value.type, mapDec, Value.encode,
      complete_Preprepare p rest hv hlen]
  | subject s => simp only [streamDecode, Value.type, mapDec, Value.encode,
      complete_Subject s rest hv hlen]
  | viewChange c => simp only [streamDecode, Value.type, mapDec, Value.encode,
      complete_ViewChange c rest hv hlen]
  | newView n => simp only [streamDecode, Value.type, mapDec, Value.encode,
      complete_NewView n rest hv hlen]
  | checkpoint c => simp only [streamDecode, Value.type, mapDec, Value.encode,
      complete_Checkpoint c rest hv hlen]

/-- Whatever stream decoding accepts starts with the canonical bytes of the value it
returns, and that value has the target type. -/
theorem streamDecode_sound (t : MsgType) (bs rest : List Byte) (v : Value)
    (h : streamDecode t bs = .ok (v, rest)) :
    v.type = t ∧ v.valid ∧ bs = v.encode ++ rest := by
  cases t with
  | request =>
    obtain ⟨hg, he⟩ := sound_mapDec Value.request
      (fun v => match v with | .request r => r.encode | _ => [])
      (fun v => v.type = .request ∧ v.valid ∧ ∃ r, v = .request r) sound_Request
      (fun _ => rfl) (fun a ha => ⟨rfl, ha, a, rfl⟩) bs v rest h
    obtain ⟨h1, h2, r, rfl⟩ := hg
    exact ⟨h1, h2, he⟩
  | preprepare =>
    obtain ⟨hg, he⟩ := sound_mapDec Value.preprepare
      (fun v => match v with | .preprepare r => r.encode | _ => [])
      (fun v => v.type = .preprepare ∧ v.valid ∧ ∃ r, v = .preprepare r) sound_Preprepare
      (fun _ => rfl) (fun a ha => ⟨rfl, ha, a, rfl⟩) bs v rest h
    obtain ⟨h1, h2, r, rfl⟩ := hg
    exact ⟨h1, h2, he⟩
  | subject =>
    obtain ⟨hg, he⟩ := sound_mapDec Value.subject
      (fun v => match v with | .subject r => r.encode | _ => [])
      (fun v => v.type = .subject ∧ v.valid ∧ ∃ r, v = .subject r) sound_Subject
      (fun _ => rfl) (fun a ha => ⟨rfl, ha, a, rfl⟩) bs v rest h
    obtain ⟨h1, h2, r, rfl⟩ := hg
    exact ⟨h1, h2, he⟩
  | viewChange =>
    obtain ⟨hg, he⟩ := sound_mapDec Value.viewChange
      (fun v => match v with | .viewChange r => r.encode | _ => [])
      (fun v => v.type = .viewChange ∧ v.valid ∧ ∃ r, v = .viewChange r) sound_ViewChange
      (fun _ => rfl) (fun a ha => ⟨rfl, ha, a, rfl⟩) bs v rest h
    obtain ⟨h1, h2, r, rfl⟩ := hg
    exact ⟨h1, h2, he⟩
  | newView =>
    obtain ⟨hg, he⟩ := sound_mapDec Value.newView
      (fun v => match v with | .newView r => r.encode | _ => [])
      (fun v => v.type = .newView ∧ v.valid ∧ ∃ r, v = .newView r) sound_NewView
      (fun _ => rfl) (fun a ha => ⟨rfl, ha, a, rfl⟩) bs v rest h
    obtain ⟨h1, h2, r, rfl⟩ := hg
    exact ⟨h1, h2, he⟩
  | checkpoint =>
    obtain ⟨hg, he⟩ := sound_mapDec Value.checkpoint
      (fun v => match v with | .checkpoint r => r.encode | _ => [])
      (fun v => v.type = .checkpoint ∧ v.valid ∧ ∃ r, v = .checkpoint r) sound_Checkpoint
      (fun _ => rfl) (fun a ha => ⟨rfl, ha, a, rfl⟩) bs v rest h
    obtain ⟨h1, h2, r, rfl⟩ := hg
    exact ⟨h1, h2, he⟩


/-! ## `Encode` and `Decode` -/

theorem ptrAll_of_ptrValid {α : Type} {g g' : α → Prop} (h : ∀ a, g a → g' a) (o : Option α)
    (ho : ptrValid g o) : ptrAll g' o := by
  cases o with
  | none => trivial
  | some a => exact h a ho

theorem bigIntEncodable_of_valid (o : Option Int) (h : bigIntValid o) : bigIntEncodable o :=
  ptrAll_of_ptrValid (fun _ h => h) o h

theorem view_encodable_of_valid (v : View) (h : v.valid) : v.encodable :=
  ⟨bigIntEncodable_of_valid _ h.1, bigIntEncodable_of_valid _ h.2⟩

theorem subject_encodable_of_valid (s : Subject) (h : s.valid) : s.encodable :=
  ptrAll_of_ptrValid view_encodable_of_valid _ h.1

theorem subjects_encodable_of_valid (xs : Slice (Option Subject))
    (h : sliceValid (ptrValid Subject.valid) xs) :
    ∀ s ∈ Slice.elems xs, ptrAll Subject.encodable s := by
  cases xs with
  | nil => exact absurd h (by simp [sliceValid])
  | of l =>
    intro s hs
    exact ptrAll_of_ptrValid subject_encodable_of_valid s (h s hs)

/-- A valid value can be encoded. -/
theorem value_encodable_of_valid (v : Value) (h : v.valid) : v.encodable := by
  cases v with
  | request r => trivial
  | preprepare p => exact ptrAll_of_ptrValid view_encodable_of_valid _ h.1
  | subject s => exact subject_encodable_of_valid s h
  | viewChange c =>
    exact ⟨bigIntEncodable_of_valid _ h.1, subjects_encodable_of_valid _ h.2.1,
      subjects_encodable_of_valid _ h.2.2.1⟩
  | newView n =>
    exact ⟨bigIntEncodable_of_valid _ h.1,
      ptrAll_of_ptrValid subject_encodable_of_valid _ h.2.2.1⟩
  | checkpoint c => exact bigIntEncodable_of_valid _ h.1

theorem Encode_of_encodable (code : Nat) (val : Value) (hv : val.encodable) :
    Encode code val = .ok ⟨code, val.encode.length % 2 ^ 32, val.encode⟩ := by
  simp only [Encode, EncodeToBytes, if_pos hv]

theorem hugePayload_length : hugePayload.length = 4294967296 :=
  List.length_replicate _ _

theorem request_encode_of_length (p : List Byte) (hp : p.length = 4294967296) :
    (Value.request ⟨.of p⟩).encode = [0xFC, 1, 0, 0, 0, 6, 0xBC, 1, 0, 0, 0, 0] ++ p := by
  have h1 : encodeString p = [0xBC, 1, 0, 0, 0, 0] ++ p := by
    rw [encodeString_of_length_ne_one _ (by rw [hp]; decide), hp]
    have : puthead 0x80 0xB7 4294967296 = [0xBC, 1, 0, 0, 0, 0] := by decide
    rw [this]
  have h2 : puthead 0xC0 0xF7 4294967302 = [0xFC, 1, 0, 0, 0, 6] := by decide
  have h3 : ([0xBC, 1, 0, 0, 0, 0] ++ p : List Byte).length = 4294967302 := by
    rw [List.length_append, hp]; rfl
  simp only [Value.encode, Request.encode, encodeByteSlice, Slice.elems, encodeList, h1, h3, h2]
  rfl

theorem request_encode_length_of_length (p : List Byte) (hp : p.length = 4294967296) :
    (Value.request ⟨.of p⟩).encode.length = 4294967308 := by
  rw [request_encode_of_length p hp, List.length_append, hp]
  rfl

theorem Encode_request_of_length (p : List Byte) (hp : p.length = 4294967296) :
    Encode MsgRequest (.request ⟨.of p⟩) =
      .ok ⟨MsgRequest, 12, (Value.request ⟨.of p⟩).encode⟩ := by
  have he : (Value.request ⟨.of p⟩).encodable := trivial
  have hm : 4294967308 % 2 ^ 32 = 12 := by norm_num
  simp only [Encode, EncodeToBytes, if_pos he, request_encode_length_of_length p hp, hm]

theorem Decode_request_of_length (p : List Byte) (hp : p.length = 4294967296) :
    Decode ⟨MsgRequest, 12, (Value.request ⟨.of p⟩).encode⟩ .request =
      .error (.failedToDecode MsgRequest 12 .valueTooLarge) := by
  have ht : NewStream (Value.request ⟨.of p⟩).encode 12 =
      [0xFC, 1, 0, 0, 0, 6, 0xBC, 1, 0, 0, 0, 0] := by
    rw [request_encode_of_length p hp]
    unfold NewStream
    rw [if_pos (by decide)]
    exact List.take_left' rfl
  have hd : streamDecode .request [0xFC, 1, 0, 0, 0, 6, 0xBC, 1, 0, 0, 0, 0] =
      .error .valueTooLarge := by decide
  simp only [Decode, ht, hd]

theorem NewStream_length_le (bs : List Byte) (n : Nat) : (NewStream bs n).length ≤ bs.length := by
  unfold NewStream
  split
  · simp [List.length_take]
  · exact le_refl _

/-- The encoding of a request is that of the request with its payload made non-nil. -/
theorem Request.encode_of_elems (r : Request) :
    r.encode = (Request.mk (.of (Slice.elems r.Payload))).encode := by
  cases r with
  | mk p => cases p <;> rfl

/-! ## The signed envelope -/

theorem complete_uint64 : Complete encodeUint (decodeUint 64) (fun n => n < 2 ^ 64) := by
  intro n rest hn _
  have hv := beValue_beBytes n
  have hl8 := beBytes_length_le 8 n (by norm_num at hn ⊢; exact hn)
  have hru := readUint_beBytes n rest
  have hh := beBytes_head_ne_zero n
  have hl1 : n < 256 → (beBytes n).length ≤ 1 := fun h => beBytes_length_le 1 n (by omega)
  unfold encodeUint
  revert hv hl8 hru hh hl1
  generalize beBytes n = l
  intro hv hl8 hru hh hl1
  match l, hv, hl8, hru, hh, hl1 with
  | [], hv, _, _, _, _ =>
    simp only [beValue, List.foldl_nil] at hv
    subst hv
    have h0 : encodeString [] = puthead 0x80 0xB7 0 := by simp [encodeString]
    rw [h0]
    simp only [decodeUint, kind_puthead_string 0 rest (by norm_num) (by simp), readUint]
    simp
  | [x], hv, _, _, hh, _ =>
    simp only [beValue, List.foldl_cons, List.foldl_nil, Nat.zero_mul, Nat.zero_add] at hv
    subst hv
    have hx0 : x.val ≠ 0 := by
      intro h0
      apply hh
      simp only [List.head?_cons, Option.some.injEq]
      exact Fin.ext h0
    simp only [encodeString]
    by_cases hx : x.val ≤ 0x7F
    · simp only [if_pos hx, List.singleton_append, decodeUint, kind, readKind]
      rw [if_pos (by omega)]
      simp only [if_neg hx0]
    · simp only [if_neg hx]
      rw [List.append_assoc]
      simp only [decodeUint, kind_puthead_string 1 ([x] ++ rest) (by decide) (by simp)]
      rw [if_neg (by norm_num)]
      simp only [List.singleton_append, readUint]
      rw [if_neg (by omega)]
  | a :: b :: t, hv, hl8, hru, _, hl1 =>
    have hlen : (a :: b :: t).length < 2 ^ 64 := lt_of_le_of_lt hl8 (by norm_num)
    have hge : 256 ≤ n := by
      by_contra hlt
      have := hl1 (by omega)
      simp only [List.length_cons] at this
      omega
    rw [encodeString_of_length_ne_one _ (by simp), List.append_assoc]
    simp only [decodeUint, kind_puthead_string _ (a :: b :: t ++ rest) hlen (by simp)]
    rw [if_neg (by simp only [List.length_cons] at hl8 ⊢; omega)]
    simp only [hru]
    rw [if_neg (by omega)]

theorem complete_address :
    Complete (fun a : Address => encodeString a.bytes) decodeAddress (fun _ => True) := by
  intro a rest _ hlen
  simp only [decodeAddress, complete_bytes a.bytes rest trivial hlen, dif_pos a.size]

theorem complete_Envelope :
    Complete Envelope.encode decodeEnvelope (fun e => e.code < 2 ^ 64) := by
  have hparts := complete_andThen complete_uint64
    (complete_andThen complete_address (complete_andThen complete_bytes complete_bytes))
  have hfields : Complete
      (fun e : Envelope => encodeUint e.code ++
        (encodeString e.senderAddress.bytes ++
          (encodeString e.payload ++ encodeString e.signature)))
      (mapDec (fun x : Nat × Address × List Byte × List Byte =>
        Envelope.mk x.1 x.2.1 x.2.2.1 x.2.2.2) _) (fun e => e.code < 2 ^ 64) :=
    complete_mapDec
      (fun x : Nat × Address × List Byte × List Byte => Envelope.mk x.1 x.2.1 x.2.2.1 x.2.2.2)
      (fun e : Envelope => (e.code, e.senderAddress, e.payload, e.signature)) _ _ hparts
      (fun _ _ => rfl) (fun _ => rfl) (by intro _ h; exact ⟨h, trivial, trivial, trivial⟩)
  exact complete_struct hfields

theorem encodeString_length_ge (b : List Byte) : b.length ≤ (encodeString b).length := by
  match b with
  | [] => simp
  | [x] =>
    simp only [encodeString]
    split <;> simp
  | _ :: _ :: _ => simp [encodeString]

theorem envelope_payload_length_le (e : Envelope) : e.payload.length ≤ e.encode.length := by
  have := encodeString_length_ge e.payload
  simp only [Envelope.encode, encodeList, List.length_append]
  omega

theorem signed_Payload_eq (m : signed.Message) (hm : m.Msg.encodable) :
    m.Payload = .ok (envelopeOf m).encode := by
  simp only [signed.Message.Payload, EncodeToBytes, if_pos hm, envelopeOf]

theorem signed_Payload_ok (m : signed.Message) (b : List Byte) (hb : m.Payload = .ok b) :
    m.Msg.encodable ∧ b = (envelopeOf m).encode := by
  have hm : m.Msg.encodable := by
    by_contra hn
    simp [signed.Message.Payload, EncodeToBytes, hn] at hb
  rw [signed_Payload_eq m hm] at hb
  exact ⟨hm, (Except.ok.inj hb).symm⟩

/-- What `FromPayload` does with the bytes `Payload` wrote, when the payload decodes into
the type the code indicates. -/
theorem FromPayload_envelopeOf (m : signed.Message) (target : MsgType) (msg : Value)
    (rest : List Byte) (hcode : m.Code < 2 ^ 64)
    (hlen : (envelopeOf m).encode.length < 2 ^ 64)
    (hk : kindType m.Code = some target)
    (hd : streamDecode target m.Msg.encode = .ok (msg, rest))
    (validateFn : Option ValidateFn) :
    signed.FromPayload (envelopeOf m).encode validateFn =
      match validateFn with
      | none => .ok ⟨m.Code, msg, m.Address, .of (Slice.elems m.Signature)⟩
      | some fn =>
        match fn m.Msg.encode (Slice.elems m.Signature) with
        | .error err => .error (.AuthenticationError err)
        | .ok _ => .ok ⟨m.Code, msg, m.Address, .of (Slice.elems m.Signature)⟩ := by
  have h1 := complete_Envelope (envelopeOf m) [] hcode hlen
  rw [List.append_nil] at h1
  have h3 : (envelopeOf m).payload = m.Msg.encode := rfl
  have h4 : (envelopeOf m).code = m.Code := rfl
  simp only [signed.FromPayload, h1, h3, h4, hk, hd]
  cases validateFn with
  | none => rfl
  | some fn => rfl

/-! ## The claims about `types.go` -/

/-- Claim C1, as stated, fails, in three ways. A request with a payload of `2 ^ 32` bytes
is encoded, with `Size` 12 for an encoding of `2 ^ 32 + 12` bytes, and `Decode` of the
resulting message returns an error. A preprepare whose proposal has a nil `Signatures`,
of length zero, is encoded and decoded without error, but the decoded value has a
non-nil empty `Signatures` and is not the original. A subject with a nil `View` is
encoded without error and `Decode` of the resulting message returns an error. -/
theorem C1_round_trip_fails :
    (Encode MsgRequest (.request ⟨.of hugePayload⟩) =
          .ok ⟨MsgRequest, 12, (Value.request ⟨.of hugePayload⟩).encode⟩ ∧
        Decode ⟨MsgRequest, 12, (Value.request ⟨.of hugePayload⟩).encode⟩ .request =
          .error (.failedToDecode MsgRequest 12 .valueTooLarge)) ∧
      (Encode MsgPreprepare (.preprepare nilSignaturesPreprepare) =
          .ok ⟨MsgPreprepare, 8, [0xC7, 0xC2, 1, 2, 0xC3, 0x0a, 2, 0xC0]⟩ ∧
        Decode ⟨MsgPreprepare, 8, [0xC7, 0xC2, 1, 2, 0xC3, 0x0a, 2, 0xC0]⟩ .preprepare =
          .ok (.preprepare unsignedPreprepare) ∧
        Value.preprepare unsignedPreprepare ≠ .preprepare nilSignaturesPreprepare) ∧
      (Encode MsgPrepare (.subject nilViewSubject) =
          .ok ⟨MsgPrepare, 5, [0xC4, 0xC0, 0x82, 1, 2]⟩ ∧
        Decode ⟨MsgPrepare, 5, [0xC4, 0xC0, 0x82, 1, 2]⟩ .subject =
          .error (.failedToDecode MsgPrepare 5 .eof)) :=
  ⟨⟨Encode_request_of_length hugePayload hugePayload_length,
      Decode_request_of_length hugePayload hugePayload_length⟩,
    ⟨by decide, by decide, by decide⟩, ⟨by decide, by decide⟩⟩

/-- Claim C1, amended: for every code and every value `m` of one of the six message types
that has no nil pointer, no nil slice and no negative number, and whose canonical
encoding is shorter than `2 ^ 32` bytes, `Encode code m` succeeds and `Decode` of the
resulting message into the type of `m` succeeds and yields `m`. -/
theorem C1_decode_encode (code : Nat) (m : Value) (hm : m.valid)
    (hlen : m.encode.length < 2 ^ 32) :
    ∃ msg, Encode code m = .ok msg ∧ Decode msg m.type = .ok m := by
  refine ⟨⟨code, m.encode.length % 2 ^ 32, m.encode⟩,
    Encode_of_encodable code m (value_encodable_of_valid m hm), ?_⟩
  have hs : NewStream m.encode (m.encode.length % 2 ^ 32) = m.encode ++ [] := by
    rw [Nat.mod_eq_of_lt hlen, List.append_nil]
    unfold NewStream
    split
    · exact List.take_length _
    · rfl
  have h64 : m.encode.length < 2 ^ 64 := lt_trans hlen (by norm_num)
  simp only [Decode, hs, streamDecode_encode m [] hm h64]

/-- Claim C1 at a preprepare whose proposal has a non-nil signature list of length
zero. -/
theorem C1_decode_encode_witness :
    (Value.preprepare unsignedPreprepare).valid ∧
      (Value.preprepare unsignedPreprepare).encode.length < 2 ^ 32 ∧
      ∃ msg, Encode MsgPreprepare (.preprepare unsignedPreprepare) = .ok msg ∧
        Decode msg (Value.preprepare unsignedPreprepare).type =
          .ok (.preprepare unsignedPreprepare) :=
  ⟨by decide, by decide,
    C1_decode_encode MsgPreprepare (.preprepare unsignedPreprepare) (by decide) (by decide)⟩

/-- Claim C3, as stated, fails: the payload `C1 80 FF` is not the canonical encoding of
any `Request`, yet `Decode` of a message with this payload into a `Request` returns no
error and yields the request with the empty payload, with `Size` 2 as well as with
`Size` 3, the length of the payload. -/
theorem C3_trailing_bytes_accepted :
    (¬ ∃ v : Value, v.type = .request ∧ v.encode = [0xC1, 0x80, 0xFF]) ∧
      Decode ⟨MsgRequest, 2, [0xC1, 0x80, 0xFF]⟩ .request = .ok (.request ⟨.of []⟩) ∧
      Decode ⟨MsgRequest, 3, [0xC1, 0x80, 0xFF]⟩ .request = .ok (.request ⟨.of []⟩) := by
  refine ⟨?_, by decide, by decide⟩
  rintro ⟨v, ht, he⟩
  cases v with
  | request r =>
    simp only [Value.encode] at he
    rw [Request.encode_of_elems] at he
    have hl : (Request.mk (.of (Slice.elems r.Payload))).encode.length < 2 ^ 64 := by
      rw [he]; simp
    have hv : (Request.mk (.of (Slice.elems r.Payload))).valid := by
      simp [Request.valid, bytesValid, sliceValid]
    have h1 := complete_Request _ [] hv hl
    rw [List.append_nil, he] at h1
    have h2 : decodeRequest [0xC1, 0x80, 0xFF] = .ok (⟨.of []⟩, [0xFF]) := by decide
    rw [h2] at h1
    simp at h1
  | preprepare p => simp [Value.type] at ht
  | subject s => simp [Value.type] at ht
  | viewChange c => simp [Value.type] at ht
  | newView n => simp [Value.type] at ht
  | checkpoint c => simp [Value.type] at ht

/-- Claim C3, amended: for every message (with a payload shorter than `2 ^ 64` bytes, as
every Go slice is) and every target type, `Decode` returns no error and yields `v`
exactly when `v` is a value of the target type without nil pointer, nil slice or
negative number and the bytes the stream may read (the first `Size` bytes of the payload,
all of it when `Size` is 0) begin with the canonical encoding of `v`; when they begin
with no such encoding, `Decode` returns an error. -/
theorem C3_decode_accepts_iff_canonical_start (msg : Message) (target : MsgType)
    (hlen : msg.Payload.length < 2 ^ 64) :
    (∀ v : Value, Decode msg target = .ok v ↔
      (v.type = target ∧ v.valid ∧
        ∃ rest, NewStream msg.Payload msg.Size = v.encode ++ rest)) ∧
    ((¬ ∃ (v : Value) (rest : List Byte), v.type = target ∧ v.valid ∧
        NewStream msg.Payload msg.Size = v.encode ++ rest) →
      ∃ err, Decode msg target = .error (.failedToDecode msg.Code msg.Size err)) := by
  have key : ∀ v : Value, Decode msg target = .ok v ↔
      (v.type = target ∧ v.valid ∧
        ∃ rest, NewStream msg.Payload msg.Size = v.encode ++ rest) := by
    intro v
    constructor
    · intro h
      unfold Decode at h
      cases hs : streamDecode target (NewStream msg.Payload msg.Size) with
      | error e => simp [hs] at h
      | ok p =>
        obtain ⟨w, rest⟩ := p
        simp only [hs, Except.ok.injEq] at h
        subst h
        obtain ⟨h1, h2, h3⟩ := streamDecode_sound target _ rest w hs
        exact ⟨h1, h2, rest, h3⟩
    · rintro ⟨h1, h2, rest, h3⟩
      have hl : v.encode.length < 2 ^ 64 := by
        have := NewStream_length_le msg.Payload msg.Size
        rw [h3, List.length_append] at this
        omega
      subst h1
      simp only [Decode, h3, streamDecode_encode v rest h2 hl]
  refine ⟨key, ?_⟩
  intro hno
  cases hd : Decode msg target with
  | ok v =>
    exfalso
    obtain ⟨h1, h2, rest, h3⟩ := (key v).mp hd
    exact hno ⟨v, rest, h1, h2, h3⟩
  | error e =>
    unfold Decode at hd
    cases hs : streamDecode target (NewStream msg.Payload msg.Size) with
    | error err =>
      simp only [hs, Except.error.injEq] at hd
      exact ⟨err, by rw [← hd]⟩
    | ok p => simp [hs] at hd

/-- Claim C3 at the message with payload `C1 80 FF` and `Size` 2, target `Request`. -/
theorem C3_decode_accepts_iff_canonical_start_witness :
    (Message.mk MsgRequest 2 [0xC1, 0x80, 0xFF]).Payload.length < 2 ^ 64 ∧
      (Decode ⟨MsgRequest, 2, [0xC1, 0x80, 0xFF]⟩ .request = .ok (.request ⟨.of []⟩) ↔
        ((Value.request ⟨.of []⟩).type = .request ∧ (Value.request ⟨.of []⟩).valid ∧
          ∃ rest, NewStream [0xC1, 0x80, 0xFF] 2 =
            (Value.request ⟨.of []⟩).encode ++ rest)) :=
  ⟨by decide,
    (C3_decode_accepts_iff_canonical_start ⟨MsgRequest, 2, [0xC1, 0x80, 0xFF]⟩ .request
      (by decide)).1 (.request ⟨.of []⟩)⟩

/-- Claim C5, as stated, fails: for a request with a payload of `2 ^ 32` bytes `Encode`
returns a message whose `Size` is 12 while its `Payload` has `2 ^ 32 + 12` bytes. -/
theorem C5_size_wraps_on_huge_payload :
    Encode MsgRequest (.request ⟨.of hugePayload⟩) =
        .ok ⟨MsgRequest, 12, (Value.request ⟨.of hugePayload⟩).encode⟩ ∧
      (Value.request ⟨.of hugePayload⟩).encode.length = 4294967308 :=
  ⟨Encode_request_of_length hugePayload hugePayload_length,
    request_encode_length_of_length hugePayload hugePayload_length⟩

/-- Claim C5, amended: for every code and every encodable value whose canonical
serialization is shorter than `2 ^ 32` bytes, `Encode` returns a message whose `Code` is
the code, whose `Payload` is the canonical serialization of the value, and whose `Size`
is the length of that payload. -/
theorem C5_encode_fields (code : Nat) (val : Value) (hv : val.encodable)
    (hlen : val.encode.length < 2 ^ 32) :
    ∃ msg, Encode code val = .ok msg ∧ msg.Code = code ∧
      EncodeToBytes val = .ok msg.Payload ∧ msg.Payload = val.encode ∧
      msg.Size = msg.Payload.length := by
  refine ⟨⟨code, val.encode.length % 2 ^ 32, val.encode⟩, ?_, rfl, ?_, rfl, ?_⟩
  · simp only [Encode, EncodeToBytes, if_pos hv]
  · simp only [EncodeToBytes, if_pos hv]
  · exact Nat.mod_eq_of_lt hlen

/-- Claim C5 at the subject of the test file, encoded under `MsgPrepare`. -/
theorem C5_encode_fields_witness :
    (Value.subject testSubject).encodable ∧
      (Value.subject testSubject).encode.length < 2 ^ 32 ∧
      ∃ msg, Encode MsgPrepare (.subject testSubject) = .ok msg ∧ msg.Code = MsgPrepare ∧
        EncodeToBytes (.subject testSubject) = .ok msg.Payload ∧
        msg.Payload = (Value.subject testSubject).encode ∧
        msg.Size = msg.Payload.length :=
  ⟨by decide, by decide,
    C5_encode_fields MsgPrepare (.subject testSubject) (by decide) (by decide)⟩

/-- Claim C6: the wire codes are Request 0, Preprepare 1, Prepare 2, Commit 3,
Checkpoint 4, ViewChange 5, NewView 6, and they are pairwise distinct. -/
theorem C6_message_codes :
    [MsgRequest, MsgPreprepare, MsgPrepare, MsgCommit, MsgCheckpoint, MsgViewChange,
        MsgNewView] = [0, 1, 2, 3, 4, 5, 6] ∧
      [MsgRequest, MsgPreprepare, MsgPrepare, MsgCommit, MsgCheckpoint, MsgViewChange,
        MsgNewView].Nodup := by
  constructor
  · rfl
  · decide

/-! ## The claims about the signed envelope -/

/-- Claim C2, as stated, fails, in two ways. The message of `testWithSignature`, a
subject stamped `MsgPreprepare`, is serialized by `Payload`, and `FromPayload` of these
bytes with a verification function that fails with `ErrNoMatchingValidator` fails with
`MalformedMessageError`: the payload is not a preprepare. The same holds for the subject
with a nil `View` stamped `MsgPrepare`, whose payload is not read back as a subject. -/
theorem C2_malformed_before_verification :
    (testMessage.Payload = .ok (envelopeOf testMessage).encode ∧
        failingValidateFn testMessage.Msg.encode (Slice.elems testMessage.Signature) =
          .error .ErrNoMatchingValidator ∧
        signed.FromPayload (envelopeOf testMessage).encode (some failingValidateFn) =
          .error .MalformedMessageError) ∧
      (nilViewMessage.Payload = .ok (envelopeOf nilViewMessage).encode ∧
        failingValidateFn nilViewMessage.Msg.encode (Slice.elems nilViewMessage.Signature) =
          .error .ErrNoMatchingValidator ∧
        signed.FromPayload (envelopeOf nilViewMessage).encode (some failingValidateFn) =
          .error .MalformedMessageError) :=
  ⟨⟨by decide, rfl, by decide⟩, ⟨by decide, rfl, by decide⟩⟩

/-- Claim C2, amended: for every message that `Payload` serializes to bytes `b` and
whose payload is a well-formed encoding of the type its kind indicates, and every
verification function that fails on its payload and signature with an authentication
error, `FromPayload` of `b` with that function fails with exactly that error and yields
no message. -/
theorem C2_failed_verification_is_rejected (m : signed.Message) (b : List Byte)
    (fn : ValidateFn) (err : AuthError) (target : MsgType) (msg : Value) (rest : List Byte)
    (hb : m.Payload = .ok b) (hcode : m.Code < 2 ^ 64) (hlen : b.length < 2 ^ 64)
    (hk : kindType m.Code = some target)
    (hd : streamDecode target m.Msg.encode = .ok (msg, rest))
    (hfail : fn m.Msg.encode (Slice.elems m.Signature) = .error err) :
    signed.FromPayload b (some fn) = .error (.AuthenticationError err) := by
  obtain ⟨_, hbe⟩ := signed_Payload_ok m b hb
  subst hbe
  have h := FromPayload_envelopeOf m target msg rest hcode hlen hk hd (some fn)
  simp only [hfail] at h
  exact h

/-- Claim C2 at the subject of `testWithSignature` stamped `MsgPrepare` and the failing
verification function of the test. -/
theorem C2_failed_verification_is_rejected_witness :
    prepareMessage.Payload = .ok (envelopeOf prepareMessage).encode ∧
      prepareMessage.Code < 2 ^ 64 ∧ (envelopeOf prepareMessage).encode.length < 2 ^ 64 ∧
      kindType prepareMessage.Code = some .subject ∧
      streamDecode .subject prepareMessage.Msg.encode = .ok (.subject testSubject, []) ∧
      failingValidateFn prepareMessage.Msg.encode (Slice.elems prepareMessage.Signature) =
        .error .ErrNoMatchingValidator ∧
      signed.FromPayload (envelopeOf prepareMessage).encode (some failingValidateFn) =
        .error (.AuthenticationError .ErrNoMatchingValidator) :=
  ⟨by decide, by decide, by decide, by decide, by decide, rfl,
    C2_failed_verification_is_rejected prepareMessage (envelopeOf prepareMessage).encode
      failingValidateFn .ErrNoMatchingValidator .subject (.subject testSubject) []
      (by decide) (by decide) (by decide) (by decide) (by decide) rfl⟩

/-- Claim C4, as stated, fails, in three ways. The message of `testWithSignature`, a
subject stamped `MsgPreprepare`, is serialized, and `FromPayload` of these bytes fails
with `MalformedMessageError`. The subject stamped `MsgPrepare` with a nil `Signature`,
and the one whose subject has a nil `Digest`, are serialized and decoded without error,
but the message decoded has a non-nil empty slice in that place and is not the
original. -/
theorem C4_kind_mismatch_and_nil_not_restored :
    (testMessage.Payload = .ok (envelopeOf testMessage).encode ∧
        signed.FromPayload (envelopeOf testMessage).encode none =
          .error .MalformedMessageError) ∧
      (nilSignatureMessage.Payload = .ok (envelopeOf nilSignatureMessage).encode ∧
        signed.FromPayload (envelopeOf nilSignatureMessage).encode none =
          .ok { nilSignatureMessage with Signature := .of [] } ∧
        { nilSignatureMessage with Signature := .of [] } ≠ nilSignatureMessage) ∧
      (nilDigestMessage.Payload = .ok (envelopeOf nilDigestMessage).encode ∧
        signed.FromPayload (envelopeOf nilDigestMessage).encode none =
          .ok { nilDigestMessage with
                Msg := .subject { testSubject with Digest := .of [] } } ∧
        { nilDigestMessage with Msg := .subject { testSubject with Digest := .of [] } } ≠
          nilDigestMessage) :=
  ⟨⟨by decide, by decide⟩, ⟨by decide, by decide, by decide⟩,
    ⟨by decide, by decide, by decide⟩⟩

/-- Claim C4, amended: for every message that `Payload` serializes to bytes `b`, whose
code indicates the type of its typed message, whose typed message has no nil pointer, no
nil slice and no negative number, and whose signature is not nil, `FromPayload` of `b`,
with no verification function or with one that accepts, yields a message equal to the
original in code, typed message, address and signature. -/
theorem C4_envelope_round_trip (m : signed.Message) (b : List Byte)
    (hb : m.Payload = .ok b) (hcode : m.Code < 2 ^ 64) (hlen : b.length < 2 ^ 64)
    (hk : kindType m.Code = some m.Msg.type) (hv : m.Msg.valid)
    (hs : m.Signature ≠ .nil) :
    signed.FromPayload b none = .ok m ∧
      ∀ (fn : ValidateFn) (signer : Address),
        fn m.Msg.encode (Slice.elems m.Signature) = .ok signer →
          signed.FromPayload b (some fn) = .ok m := by
  obtain ⟨_, hbe⟩ := signed_Payload_ok m b hb
  subst hbe
  have hp : m.Msg.encode.length < 2 ^ 64 :=
    lt_of_le_of_lt (envelope_payload_length_le (envelopeOf m)) hlen
  have hd := streamDecode_encode m.Msg [] hv hp
  rw [List.append_nil] at hd
  have hm : (⟨m.Code, m.Msg, m.Address, .of (Slice.elems m.Signature)⟩ : signed.Message) =
      m := by
    cases m with
    | mk c v a s =>
      cases s with
      | nil => exact absurd rfl hs
      | of l => rfl
  refine ⟨?_, ?_⟩
  · have h := FromPayload_envelopeOf m m.Msg.type m.Msg [] hcode hlen hk hd none
    simp only [hm] at h
    exact h
  · intro fn signer hok
    have h := FromPayload_envelopeOf m m.Msg.type m.Msg [] hcode hlen hk hd (some fn)
    simp only [hok, hm] at h
    exact h

/-- Claim C4 at the subject of `testWithSignature` stamped `MsgPrepare`, decoded without
a verification function and with the accepting one. -/
theorem C4_envelope_round_trip_witness :
    prepareMessage.Payload = .ok (envelopeOf prepareMessage).encode ∧
      prepareMessage.Code < 2 ^ 64 ∧ (envelopeOf prepareMessage).encode.length < 2 ^ 64 ∧
      kindType prepareMessage.Code = some prepareMessage.Msg.type ∧
      prepareMessage.Msg.valid ∧ prepareMessage.Signature ≠ .nil ∧
      signed.FromPayload (envelopeOf prepareMessage).encode none = .ok prepareMessage ∧
      signed.FromPayload (envelopeOf prepareMessage).encode (some acceptingValidateFn) =
        .ok prepareMessage :=
  have h := C4_envelope_round_trip prepareMessage (envelopeOf prepareMessage).encode
    (by decide) (by decide) (by decide) (by decide) (by decide) (by decide)
  ⟨by decide, by decide, by decide, by decide, by decide, by decide, h.1,
    h.2 acceptingValidateFn _ rfl⟩

/-! ## The claims about `core/connection.go` -/

/-- Claim C7: in state `StateSync`, `handleHello` hands the Hello's preprepare and the
source's address to `AddCheckpoint` and returns its result, the core changing only in
`syncs`; in every other state it returns `nil` and leaves the core as it was. -/
theorem C7_handleHello {Syncs ε : Type}
    (AddCheckpoint : Syncs → Preprepare → Address → Syncs × Option ε)
    (c : core Syncs) (hello : Hello) (src : Validator) :
    core.handleHello AddCheckpoint c hello src =
      if c.state = State.StateSync then
        ({ c with syncs := (AddCheckpoint c.syncs hello.Preprepare src.Address).1 },
          (AddCheckpoint c.syncs hello.Preprepare src.Address).2)
      else (c, none) := by
  unfold core.handleHello
  by_cases hs : c.state = State.StateSync
  · rw [if_neg (by simpa using hs), if_pos hs]
    rcases h : AddCheckpoint c.syncs hello.Preprepare src.Address with ⟨syncs, _ | err⟩ <;> rfl
  · rw [if_pos (by simpa using hs), if_neg hs]

/-- Claim C8: `handleConnection` returns `nil`; when the snapshot history is empty it
sends nothing, and otherwise it sends to the address exactly one Hello, whose preprepare
is that of the last snapshot; state, history and sync store are left as they were. -/
theorem C8_handleConnection {Syncs ε : Type} (MsgHello : Nat) (c : core Syncs)
    (addr : Address) :
    (core.handleConnection MsgHello c addr : core Syncs × Option ε).2 = none ∧
      (core.handleConnection MsgHello c addr : core Syncs × Option ε).1.sent =
        c.sent ++
          (if h : c.snapshots = [] then []
           else [{ code := MsgHello, msg := { Preprepare := (c.snapshots.getLast h).Preprepare },
                   target := addr }]) ∧
      (core.handleConnection MsgHello c addr : core Syncs × Option ε).1.state = c.state ∧
      (core.handleConnection MsgHello c addr : core Syncs × Option ε).1.snapshots =
        c.snapshots ∧
      (core.handleConnection MsgHello c addr : core Syncs × Option ε).1.syncs = c.syncs := by
  refine ⟨rfl, ?_⟩
  simp only [core.handleConnection, core.sendHello, core.RLock]
  by_cases h : c.snapshots = []
  · simp [h]
  · rw [dif_neg h, List.getLast?_eq_getLast _ h]
    simp [core.send, core.RUnlock]

/-- Claim C10 at the code: after `sendHello` the number of read-lock holds is the number
before the call when the snapshot history is non-empty, and one more when it is empty. -/
theorem C10_sendHello_read_lock {Syncs : Type} (MsgHello : Nat) (c : core Syncs)
    (addr : Address) :
    (c.sendHello MsgHello addr).snapshotsMu =
      c.snapshotsMu + (if c.snapshots = [] then 1 else 0) := by
  simp only [core.sendHello, core.RLock]
  by_cases h : c.snapshots = []
  · simp [h]
  · rw [if_neg h, List.getLast?_eq_getLast _ h]
    simp [core.send, core.RUnlock]

end pbft

namespace simulation

/-! ## The claim about `backends/simulation/backend.go` -/

/-- Claim C9 at the code: with a backend whose first `Seal` returns the finalized block
and no error, `newRequest(genesis)` returns, and the one block it has
handed to `InsertBlock` is the candidate it passed to `Seal`, which differs from the
finalized block that `Seal` returned. -/
theorem C9_newRequest_inserts_candidate :
    (proposerOnce.Seal 0 [] candidate).2.newBlock = some finalized ∧
      (proposerOnce.Seal 0 [] candidate).2.err = none ∧
      (newRequest proposerOnce 3 startManager genesis).map (fun pm => pm.mockChain) =
        some [candidate] ∧
      candidate ≠ finalized := by
  refine ⟨rfl, rfl, rfl, by decide⟩

/-- When `Seal` returns an error or no block, `newRequest` returns with the chain as it
was. -/
theorem newRequest_inserts_nothing {Backend ε : Type} (env : Env Backend ε) (fuel : Nat)
    (pm : ProtocolManager Backend) (lastBlock : Block) :
    let block := makeBlock env pm.clock lastBlock lastBlock.Number
    let r := env.Seal pm.backend pm.mockChain block
    (r.2.newBlock = none ∨ r.2.err ≠ none) →
      (newRequest env (fuel + 1) pm lastBlock).map (fun pm => pm.mockChain) =
        some pm.mockChain := by
  intro block r h
  simp only [newRequest]
  rcases hb : (env.Seal pm.backend pm.mockChain
      (makeBlock env pm.clock lastBlock lastBlock.Number)).2.newBlock with _ | nb <;>
    rcases he : (env.Seal pm.backend pm.mockChain
      (makeBlock env pm.clock lastBlock lastBlock.Number)).2.err with _ | e
  · rfl
  · rfl
  · exfalso
    rcases h with h | h
    · simp [r, block, hb] at h
    · exact h he
  · rfl

end simulation
